import Mathlib

/-!
Verification of core routines of a proof-of-work blockchain node
(difficulty control, sliding-window Bloom filter mutator set, archival
block state) against a shallow embedding of the source code.

Machine integers are embedded as `Nat`/`Int` with explicit `% 2 ^ w`
wherever the source performs wrapping casts or wrapping arithmetic.
Fallible code (assertions, panics, unwraps of absent keys) is embedded
with `Option`: `none` models a fatal outcome, in which the Rust code
does not return normally.
-/

/-! ## Difficulty arithmetic (difficulty_control.rs)

`Difficulty` is a 5-limb little-endian unsigned integer with `u32` limbs.
We embed the limb array as a `List Nat` whose well-formedness
(`length = 5`, every limb `< 2 ^ 32`) appears as hypotheses of the
theorems.
-/

/-- Numeric value of a little-endian list of 32-bit limbs. -/
def limbsVal : List Nat → Nat
  | [] => 0
  | l :: ls => l + 2 ^ 32 * limbsVal ls

/-- First loop of `Difficulty::safe_mul_fixed_point_rational`: multiply the
limbs by the low word `lo`, propagating a `u32` carry through `u64` sums.
Returns the produced limbs and the final carry. -/
def mulLoLoop : List Nat → Nat → Nat → List Nat × Nat
  | [], _, carry => ([], carry)
  | d :: ds, lo, carry =>
    let sum := (carry + d * lo) % 2 ^ 64
    let rest := mulLoLoop ds lo (sum / 2 ^ 32)
    (sum % 2 ^ 32 :: rest.1, rest.2)

/-- Second loop of `Difficulty::safe_mul_fixed_point_rational`: add
`d * hi` into the accumulator limbs shifted by one limb, tracking the
overflowing-add carry bit exactly as the source does. -/
def mulHiLoop : List Nat → List Nat → Nat → Nat → List Nat × Nat
  | d :: ds, a :: acc, hi, carry =>
    let sum := (carry + d * hi) % 2 ^ 64
    let t := a + sum % 2 ^ 32
    let carry_bit : Nat := if 2 ^ 32 ≤ t then 1 else 0
    let rest := mulHiLoop ds acc hi ((sum / 2 ^ 32 + carry_bit) % 2 ^ 32)
    (t % 2 ^ 32 :: rest.1, rest.2)
  | [], acc, _, carry => (acc, carry)
  | _ :: _, [], _, carry => ([], carry)

/-- `Difficulty::safe_mul_fixed_point_rational(self, lo, hi)`: multiply a
5-limb difficulty by the fixed-point rational `(lo + (hi << 32)) / 2 ^ 32`,
discarding the fractional word. Returns the 5 result limbs (indices 1..=5
of the 6-limb working array) and the most significant overflow word. -/
def safe_mul_fixed_point_rational (d : List Nat) (lo hi : Nat) : List Nat × Nat :=
  let first := mulLoLoop d lo 0
  let new_difficulty := first.1 ++ [first.2]
  let second := mulHiLoop d new_difficulty.tail hi 0
  (second.1, second.2)

/-- Combined numeric value of the pair returned by
`safe_mul_fixed_point_rational`: the 5 result limbs plus the overflow limb
in position 5 (weight `2 ^ 160`). -/
def mulResultVal (p : List Nat × Nat) : Nat := limbsVal p.1 + 2 ^ 160 * p.2

/-- `Difficulty::MINIMUM = [1000, 0, 0, 0, 0]`. -/
def difficultyMINIMUM : List Nat := [1000, 0, 0, 0, 0]

/-- `Difficulty::MAXIMUM = [u32::MAX; 5]`. -/
def difficultyMAXIMUM : List Nat :=
  [2 ^ 32 - 1, 2 ^ 32 - 1, 2 ^ 32 - 1, 2 ^ 32 - 1, 2 ^ 32 - 1]

/-- The `Ord` instance of `Difficulty`: zip the reversed (most significant
first) limb sequences, compare limbwise, and fold keeping the first
non-equal verdict. -/
def difficultyCmp (a b : List Nat) : Ordering :=
  ((a.reverse.zip b.reverse).map (fun p => compare p.1 p.2)).foldl
    (fun acc new =>
      match acc with
      | Ordering.lt => acc
      | Ordering.eq => new
      | Ordering.gt => acc)
    Ordering.eq

/-- Reinterpretation of an integer as a two-complement `i64`
(the effect of the Rust cast `as i64` and of wrapping `i64` arithmetic). -/
def i64wrap (x : Int) : Int := (x + 2 ^ 63) % 2 ^ 64 - 2 ^ 63

/-- The `relative_error` value computed by `difficulty_control`:
`(absolute_error as i128) * ((1i128 << 32) / (target as i128))`, where
`absolute_error = (delta_t as i64) - (target as i64)`. The Rust `/` on
`i128` truncates toward zero, embedded as `Int.tdiv`. -/
def relative_error (delta_t target_block_interval : Nat) : Int :=
  let absolute_error := i64wrap (i64wrap delta_t - i64wrap target_block_interval)
  absolute_error * Int.tdiv (2 ^ 32) (target_block_interval : Int)

/-- The `clamped_error` value computed by `difficulty_control`:
`relative_error.clamp(-1 << 32, 4 << 32)`. -/
def clamped_error (delta_t target_block_interval : Nat) : Int :=
  min (4 * 2 ^ 32) (max (-(2 ^ 32)) (relative_error delta_t target_block_interval))

/-- The control signal `one_plus_p_times_error = (1 << 32) + ((-clamped) >> 4)`
of `difficulty_control`; the arithmetic right shift of an `i128` is floor
division by `2 ^ 4`. -/
def one_plus_p_times_error (delta_t target_block_interval : Nat) : Int :=
  2 ^ 32 + Int.fdiv (-(clamped_error delta_t target_block_interval)) (2 ^ 4)

/-- `difficulty_control(new_timestamp, old_timestamp, old_difficulty,
target_block_interval, previous_block_height)`.

Modelled from the spec where the sources end: `Timestamp`,
`TARGET_BLOCK_INTERVAL` and `BlockHeight` live outside the given sources,
so timestamps are embedded as their `u64` nanosecond counts with
`delta_t = new_timestamp - old_timestamp` (the spec assumes valid block
timestamps, i.e. `old_timestamp ≤ new_timestamp`), the target interval is
taken as an explicit positive argument, and `previous_block_height.is_genesis()`
as a boolean. Everything after `delta_t` follows the source: the genesis
early return, the clamped relative error, the `u32` words `lo` and `hi` of
the control signal, the fixed-point multiplication, saturation at
`MAXIMUM` on overflow and the clip up to `MINIMUM`. -/
def difficulty_control (new_timestamp old_timestamp : Nat) (old_difficulty : List Nat)
    (target_block_interval : Nat) (previous_block_height_is_genesis : Bool) : List Nat :=
  if previous_block_height_is_genesis then old_difficulty else
  let delta_t := new_timestamp - old_timestamp
  let signal := one_plus_p_times_error delta_t target_block_interval
  let lo := (signal % 2 ^ 32).toNat
  let hi := (Int.fdiv signal (2 ^ 32) % 2 ^ 32).toNat
  let result := safe_mul_fixed_point_rational old_difficulty lo hi
  if 0 < result.2 then difficultyMAXIMUM
  else if difficultyCmp result.1 difficultyMINIMUM = Ordering.lt then difficultyMINIMUM
  else result.1

lemma limbsVal_append_single (t : List Nat) (x : Nat) :
    limbsVal (t ++ [x]) = limbsVal t + 2 ^ (32 * t.length) * x := by
  induction t with
  | nil => simp [limbsVal]
  | cons h t ih =>
    show h + 2 ^ 32 * limbsVal (t ++ [x]) = h + 2 ^ 32 * limbsVal t + 2 ^ (32 * (t.length + 1)) * x
    rw [ih, show 32 * (t.length + 1) = 32 + 32 * t.length by ring, pow_add]
    ring

lemma limbsVal_lt (l : List Nat) (h : ∀ x ∈ l, x < 2 ^ 32) :
    limbsVal l < 2 ^ (32 * l.length) := by
  induction l with
  | nil => simp [limbsVal]
  | cons a l ih =>
    have ha : a < 2 ^ 32 := h a (by simp)
    have hl : limbsVal l < 2 ^ (32 * l.length) := ih (fun x hx => h x (by simp [hx]))
    have h1 : (1 : Nat) ≤ 2 ^ (32 * l.length) := Nat.one_le_two_pow
    show a + 2 ^ 32 * limbsVal l < 2 ^ (32 * (l.length + 1))
    rw [show 32 * (l.length + 1) = 32 + 32 * l.length by ring, pow_add]
    omega

lemma mulLoLoop_spec (ds : List Nat) (lo : Nat) (hlo : lo < 2 ^ 32) :
    ∀ carry : Nat, (∀ x ∈ ds, x < 2 ^ 32) → carry < 2 ^ 32 →
    limbsVal (mulLoLoop ds lo carry).1 + 2 ^ (32 * ds.length) * (mulLoLoop ds lo carry).2
        = carry + limbsVal ds * lo
    ∧ (mulLoLoop ds lo carry).2 < 2 ^ 32
    ∧ (∀ x ∈ (mulLoLoop ds lo carry).1, x < 2 ^ 32)
    ∧ (mulLoLoop ds lo carry).1.length = ds.length := by
  induction ds with
  | nil =>
    intro carry _ hc
    exact ⟨by simp [mulLoLoop, limbsVal], hc, by simp [mulLoLoop], rfl⟩
  | cons d ds ih =>
    intro carry hds hc
    have hd : d < 2 ^ 32 := hds d (by simp)
    have hmul : d * lo ≤ (2 ^ 32 - 1) * (2 ^ 32 - 1) :=
      Nat.mul_le_mul (by omega) (by omega)
    have hsum : carry + d * lo < 2 ^ 64 := by omega
    have hmod : (carry + d * lo) % 2 ^ 64 = carry + d * lo := Nat.mod_eq_of_lt hsum
    have hunfold : mulLoLoop (d :: ds) lo carry =
        (((carry + d * lo) % 2 ^ 64) % 2 ^ 32 ::
            (mulLoLoop ds lo (((carry + d * lo) % 2 ^ 64) / 2 ^ 32)).1,
          (mulLoLoop ds lo (((carry + d * lo) % 2 ^ 64) / 2 ^ 32)).2) := rfl
    rw [hunfold, hmod]
    have hc1 : (carry + d * lo) / 2 ^ 32 < 2 ^ 32 := by omega
    obtain ⟨ihval, ihc, ihb, ihlen⟩ :=
      ih ((carry + d * lo) / 2 ^ 32) (fun x hx => hds x (by simp [hx])) hc1
    refine ⟨?_, ihc, ?_, by simpa using ihlen⟩
    · have hdm : (carry + d * lo) % 2 ^ 32 + 2 ^ 32 * ((carry + d * lo) / 2 ^ 32)
          = carry + d * lo := by omega
      simp only [limbsVal, List.length_cons]
      calc (carry + d * lo) % 2 ^ 32
            + 2 ^ 32 * limbsVal (mulLoLoop ds lo ((carry + d * lo) / 2 ^ 32)).1
            + 2 ^ (32 * (ds.length + 1)) * (mulLoLoop ds lo ((carry + d * lo) / 2 ^ 32)).2
          = (carry + d * lo) % 2 ^ 32
            + 2 ^ 32 * (limbsVal (mulLoLoop ds lo ((carry + d * lo) / 2 ^ 32)).1
              + 2 ^ (32 * ds.length) * (mulLoLoop ds lo ((carry + d * lo) / 2 ^ 32)).2) := by
            rw [show 32 * (ds.length + 1) = 32 + 32 * ds.length by ring, pow_add]
            ring
        _ = (carry + d * lo) % 2 ^ 32
            + 2 ^ 32 * ((carry + d * lo) / 2 ^ 32 + limbsVal ds * lo) := by rw [ihval]
        _ = ((carry + d * lo) % 2 ^ 32 + 2 ^ 32 * ((carry + d * lo) / 2 ^ 32))
            + 2 ^ 32 * (limbsVal ds * lo) := by ring
        _ = carry + d * lo + 2 ^ 32 * (limbsVal ds * lo) := by rw [hdm]
        _ = carry + (d + 2 ^ 32 * limbsVal ds) * lo := by ring
    · intro x hx
      rcases List.mem_cons.mp hx with h | h
      · omega
      · exact ihb x h

lemma mulHiLoop_spec (hi : Nat) (hhi : hi < 2 ^ 32) :
    ∀ (ds acc : List Nat) (carry : Nat), acc.length = ds.length →
    (∀ x ∈ ds, x < 2 ^ 32) → (∀ x ∈ acc, x < 2 ^ 32) → carry < 2 ^ 32 →
    limbsVal (mulHiLoop ds acc hi carry).1 + 2 ^ (32 * ds.length) * (mulHiLoop ds acc hi carry).2
        = carry + limbsVal acc + limbsVal ds * hi
    ∧ (mulHiLoop ds acc hi carry).2 < 2 ^ 32
    ∧ (∀ x ∈ (mulHiLoop ds acc hi carry).1, x < 2 ^ 32)
    ∧ (mulHiLoop ds acc hi carry).1.length = ds.length := by
  intro ds
  induction ds with
  | nil =>
    intro acc carry hlen _ haccb hc
    have : acc = [] := List.length_eq_zero.mp (by simpa using hlen)
    subst this
    exact ⟨by simp [mulHiLoop, limbsVal], hc, by simp [mulHiLoop], rfl⟩
  | cons d ds ih =>
    intro acc carry hlen hds haccb hc
    rcases acc with _ | ⟨a, acc⟩
    · simp at hlen
    have hd : d < 2 ^ 32 := hds d (by simp)
    have ha : a < 2 ^ 32 := haccb a (by simp)
    have hmul : d * hi ≤ (2 ^ 32 - 1) * (2 ^ 32 - 1) :=
      Nat.mul_le_mul (by omega) (by omega)
    have hsum : carry + d * hi ≤ 2 ^ 64 - 2 ^ 32 := by omega
    have hmod : (carry + d * hi) % 2 ^ 64 = carry + d * hi := Nat.mod_eq_of_lt (by omega)
    have hunfold : mulHiLoop (d :: ds) (a :: acc) hi carry =
        ((a + ((carry + d * hi) % 2 ^ 64) % 2 ^ 32) % 2 ^ 32 ::
            (mulHiLoop ds acc hi
              ((((carry + d * hi) % 2 ^ 64) / 2 ^ 32 +
                (if 2 ^ 32 ≤ a + ((carry + d * hi) % 2 ^ 64) % 2 ^ 32 then 1 else 0)) % 2 ^ 32)).1,
          (mulHiLoop ds acc hi
              ((((carry + d * hi) % 2 ^ 64) / 2 ^ 32 +
                (if 2 ^ 32 ≤ a + ((carry + d * hi) % 2 ^ 64) % 2 ^ 32 then 1 else 0)) % 2 ^ 32)).2) := rfl
    rw [hunfold, hmod]
    have hc1lt : (carry + d * hi) / 2 ^ 32 +
        (if 2 ^ 32 ≤ a + (carry + d * hi) % 2 ^ 32 then 1 else 0) < 2 ^ 32 := by
      split <;> omega
    have hc1mod : ((carry + d * hi) / 2 ^ 32 +
        (if 2 ^ 32 ≤ a + (carry + d * hi) % 2 ^ 32 then 1 else 0)) % 2 ^ 32
        = (carry + d * hi) / 2 ^ 32 +
          (if 2 ^ 32 ≤ a + (carry + d * hi) % 2 ^ 32 then 1 else 0) :=
      Nat.mod_eq_of_lt hc1lt
    rw [hc1mod]
    obtain ⟨ihval, ihc, ihb, ihlen⟩ := ih acc
      ((carry + d * hi) / 2 ^ 32 + (if 2 ^ 32 ≤ a + (carry + d * hi) % 2 ^ 32 then 1 else 0))
      (by simpa using hlen) (fun x hx => hds x (by simp [hx]))
      (fun x hx => haccb x (by simp [hx])) hc1lt
    refine ⟨?_, ihc, ?_, by simpa using ihlen⟩
    · have hdm : (a + (carry + d * hi) % 2 ^ 32) % 2 ^ 32
          + 2 ^ 32 * ((carry + d * hi) / 2 ^ 32 +
            (if 2 ^ 32 ≤ a + (carry + d * hi) % 2 ^ 32 then 1 else 0))
          = carry + a + d * hi := by
        split <;> omega
      simp only [limbsVal, List.length_cons]
      calc (a + (carry + d * hi) % 2 ^ 32) % 2 ^ 32
            + 2 ^ 32 * limbsVal (mulHiLoop ds acc hi _).1
            + 2 ^ (32 * (ds.length + 1)) * (mulHiLoop ds acc hi _).2
          = (a + (carry + d * hi) % 2 ^ 32) % 2 ^ 32
            + 2 ^ 32 * (limbsVal (mulHiLoop ds acc hi _).1
              + 2 ^ (32 * ds.length) * (mulHiLoop ds acc hi _).2) := by
            rw [show 32 * (ds.length + 1) = 32 + 32 * ds.length by ring, pow_add]
            ring
        _ = (a + (carry + d * hi) % 2 ^ 32) % 2 ^ 32
            + 2 ^ 32 * (((carry + d * hi) / 2 ^ 32 +
                (if 2 ^ 32 ≤ a + (carry + d * hi) % 2 ^ 32 then 1 else 0))
              + limbsVal acc + limbsVal ds * hi) := by rw [ihval]
        _ = ((a + (carry + d * hi) % 2 ^ 32) % 2 ^ 32
              + 2 ^ 32 * ((carry + d * hi) / 2 ^ 32 +
                (if 2 ^ 32 ≤ a + (carry + d * hi) % 2 ^ 32 then 1 else 0)))
            + 2 ^ 32 * limbsVal acc + 2 ^ 32 * (limbsVal ds * hi) := by ring
        _ = (carry + a + d * hi) + 2 ^ 32 * limbsVal acc + 2 ^ 32 * (limbsVal ds * hi) := by
            rw [hdm]
        _ = carry + (a + 2 ^ 32 * limbsVal acc) + (d + 2 ^ 32 * limbsVal ds) * hi := by ring
    · intro x hx
      rcases List.mem_cons.mp hx with h | h
      · omega
      · exact ihb x h

lemma safe_mul_spec (d : List Nat) (lo hi : Nat) (hd5 : d.length = 5)
    (hdb : ∀ x ∈ d, x < 2 ^ 32) (hlo : lo < 2 ^ 32) (hhi : hi < 2 ^ 32) :
    mulResultVal (safe_mul_fixed_point_rational d lo hi)
        = limbsVal d * (lo + 2 ^ 32 * hi) / 2 ^ 32
    ∧ (∀ x ∈ (safe_mul_fixed_point_rational d lo hi).1, x < 2 ^ 32)
    ∧ (safe_mul_fixed_point_rational d lo hi).1.length = 5
    ∧ (safe_mul_fixed_point_rational d lo hi).2 < 2 ^ 32 := by
  obtain ⟨loval, loc, lob, lolen⟩ := mulLoLoop_spec d lo hlo 0 hdb (by norm_num)
  rcases hp : (mulLoLoop d lo 0).1 with _ | ⟨h0, t⟩
  · rw [hp] at lolen; rw [hd5] at lolen; simp at lolen
  have htlen : t.length = 4 := by
    have := lolen
    rw [hp, hd5] at this
    simpa using this
  have hacc_len : (t ++ [(mulLoLoop d lo 0).2]).length = d.length := by
    simp [htlen, hd5]
  have hacc_b : ∀ x ∈ t ++ [(mulLoLoop d lo 0).2], x < 2 ^ 32 := by
    intro x hx
    rcases List.mem_append.mp hx with h | h
    · exact lob x (by rw [hp]; simp [h])
    · simp at h; omega
  obtain ⟨hival, hic, hib, hilen⟩ :=
    mulHiLoop_spec hi hhi d (t ++ [(mulLoLoop d lo 0).2]) 0 hacc_len hdb hacc_b (by norm_num)
  have hkey : safe_mul_fixed_point_rational d lo hi
      = (mulHiLoop d (t ++ [(mulLoLoop d lo 0).2]) hi 0) := by
    simp only [safe_mul_fixed_point_rational]
    rw [hp]
    simp
  have hh0 : h0 < 2 ^ 32 := lob h0 (by rw [hp]; simp)
  -- value of the 6-limb intermediate array
  have hsix : h0 + 2 ^ 32 * limbsVal (t ++ [(mulLoLoop d lo 0).2]) = limbsVal d * lo := by
    have e1 : limbsVal (t ++ [(mulLoLoop d lo 0).2])
        = limbsVal t + 2 ^ 128 * (mulLoLoop d lo 0).2 := by
      rw [limbsVal_append_single, htlen]
    have e2 : limbsVal (mulLoLoop d lo 0).1 = h0 + 2 ^ 32 * limbsVal t := by
      rw [hp]; rfl
    rw [hd5] at loval
    rw [e2] at loval
    rw [e1]
    calc h0 + 2 ^ 32 * (limbsVal t + 2 ^ 128 * (mulLoLoop d lo 0).2)
        = h0 + 2 ^ 32 * limbsVal t + 2 ^ (32 * 5) * (mulLoLoop d lo 0).2 := by norm_num; ring
      _ = 0 + limbsVal d * lo := loval
      _ = limbsVal d * lo := by ring
  refine ⟨?_, fun x hx => hib x (by rw [hkey] at hx; exact hx), ?_, ?_⟩
  · have hdist : limbsVal d * (lo + 2 ^ 32 * hi)
        = limbsVal d * lo + 2 ^ 32 * (limbsVal d * hi) := by ring
    have hres : mulResultVal (safe_mul_fixed_point_rational d lo hi)
        = limbsVal (mulHiLoop d (t ++ [(mulLoLoop d lo 0).2]) hi 0).1
          + 2 ^ 160 * (mulHiLoop d (t ++ [(mulLoLoop d lo 0).2]) hi 0).2 := by
      simp only [mulResultVal, hkey]
    rw [hres, hdist]
    rw [hd5, show (32 * 5 : Nat) = 160 by norm_num] at hival
    omega
  · rw [hkey, hilen, hd5]
  · rw [hkey]; exact hic

/-- The 5-limb little-endian representation of a value below `2 ^ 160`. -/
def toLimbs5 (n : Nat) : List Nat :=
  [n % 2 ^ 32, n / 2 ^ 32 % 2 ^ 32, n / 2 ^ 64 % 2 ^ 32, n / 2 ^ 96 % 2 ^ 32,
    n / 2 ^ 128 % 2 ^ 32]

lemma toLimbs5_spec (n : Nat) (h : n < 2 ^ 160) :
    limbsVal (toLimbs5 n) = n ∧ (∀ x ∈ toLimbs5 n, x < 2 ^ 32) ∧ (toLimbs5 n).length = 5 := by
  refine ⟨?_, ?_, rfl⟩
  · show n % 2 ^ 32 + 2 ^ 32 * (n / 2 ^ 32 % 2 ^ 32 + 2 ^ 32 * (n / 2 ^ 64 % 2 ^ 32
      + 2 ^ 32 * (n / 2 ^ 96 % 2 ^ 32 + 2 ^ 32 * (n / 2 ^ 128 % 2 ^ 32 + 2 ^ 32 * 0)))) = n
    omega
  · intro x hx
    simp only [toLimbs5, List.mem_cons, List.not_mem_nil, or_false] at hx
    rcases hx with h | h | h | h | h <;> subst h <;> omega

lemma difficultyCmp_lt_MINIMUM (nd : List Nat) (h5 : nd.length = 5)
    (hb : ∀ x ∈ nd, x < 2 ^ 32) :
    (difficultyCmp nd difficultyMINIMUM = Ordering.lt) ↔ limbsVal nd < 1000 := by
  rcases nd with _ | ⟨a, _ | ⟨b, _ | ⟨c, _ | ⟨d, _ | ⟨e, rest⟩⟩⟩⟩⟩ <;> simp at h5
  subst h5
  have ha : a < 2 ^ 32 := hb a (by simp)
  have hval : limbsVal [a, b, c, d, e]
      = a + 2 ^ 32 * (b + 2 ^ 32 * (c + 2 ^ 32 * (d + 2 ^ 32 * (e + 2 ^ 32 * 0)))) := rfl
  simp only [difficultyCmp, difficultyMINIMUM, List.reverse_cons, List.reverse_nil,
    List.nil_append, List.cons_append, List.zip_cons_cons, List.zip_nil_right,
    List.map_cons, List.foldl_cons, List.map_nil, List.foldl_nil]
  rcases hce : compare e 0 with _ | _ | _
  · simp [Nat.compare_eq_lt] at hce
  · have he : e = 0 := Nat.compare_eq_eq.mp hce
    simp only [hce]
    rcases hcd : compare d 0 with _ | _ | _
    · simp [Nat.compare_eq_lt] at hcd
    · have hd : d = 0 := Nat.compare_eq_eq.mp hcd
      simp only [hcd]
      rcases hcc : compare c 0 with _ | _ | _
      · simp [Nat.compare_eq_lt] at hcc
      · have hc : c = 0 := Nat.compare_eq_eq.mp hcc
        simp only [hcc]
        rcases hcb : compare b 0 with _ | _ | _
        · simp [Nat.compare_eq_lt] at hcb
        · have hbb : b = 0 := Nat.compare_eq_eq.mp hcb
          simp only [hcb]
          rcases hca : compare a 1000 with _ | _ | _
          · have : a < 1000 := Nat.compare_eq_lt.mp hca
            simp only [hca, hval]
            simp
            omega
          · have : a = 1000 := Nat.compare_eq_eq.mp hca
            simp only [hca, hval]
            simp
            omega
          · have : 1000 < a := Nat.compare_eq_gt.mp hca
            simp only [hca, hval]
            simp
            omega
        · have hbb : 0 < b := Nat.compare_eq_gt.mp hcb
          simp only [hcb, hval]
          simp
          omega
      · have hc : 0 < c := Nat.compare_eq_gt.mp hcc
        simp only [hcc, hval]
        simp
        omega
    · have hd : 0 < d := Nat.compare_eq_gt.mp hcd
      simp only [hcd, hval]
      simp
      omega
  · have he : 0 < e := Nat.compare_eq_gt.mp hce
    simp only [hce, hval]
    simp
    omega

/-- Claim C5: for all difficulties `a` and `b` at least `MINIMUM` and every
positive fixed-point factor `(lo + (hi << 32)) / 2 ^ 32`, the multiplication
`safe_mul_fixed_point_rational` (result limbs together with the overflow
limb) is linear modulo a one-ulp carry: the value obtained for `a` plus the
value obtained for `b` equals the value obtained for the difficulty
representing `a + b`, or differs from it by exactly one ulp. -/
theorem safe_mul_fixed_point_rational_linear_mod_one_ulp
    (a b : List Nat) (lo hi : Nat)
    (ha5 : a.length = 5) (hb5 : b.length = 5)
    (hab : ∀ x ∈ a, x < 2 ^ 32) (hbb : ∀ x ∈ b, x < 2 ^ 32)
    (hlo : lo < 2 ^ 32) (hhi : hi < 2 ^ 32)
    (hamin : 1000 ≤ limbsVal a) (hbmin : 1000 ≤ limbsVal b)
    (hrpos : 0 < lo + 2 ^ 32 * hi)
    (hfit : limbsVal a + limbsVal b < 2 ^ 160) :
    mulResultVal (safe_mul_fixed_point_rational a lo hi)
        + mulResultVal (safe_mul_fixed_point_rational b lo hi)
      = mulResultVal (safe_mul_fixed_point_rational (toLimbs5 (limbsVal a + limbsVal b)) lo hi)
    ∨ mulResultVal (safe_mul_fixed_point_rational a lo hi)
        + mulResultVal (safe_mul_fixed_point_rational b lo hi) + 1
      = mulResultVal (safe_mul_fixed_point_rational (toLimbs5 (limbsVal a + limbsVal b)) lo hi) := by
  obtain ⟨hsval, hsb, hslen⟩ := toLimbs5_spec (limbsVal a + limbsVal b) hfit
  obtain ⟨hva, -, -, -⟩ := safe_mul_spec a lo hi ha5 hab hlo hhi
  obtain ⟨hvb, -, -, -⟩ := safe_mul_spec b lo hi hb5 hbb hlo hhi
  obtain ⟨hvs, -, -, -⟩ := safe_mul_spec (toLimbs5 (limbsVal a + limbsVal b)) lo hi hslen hsb hlo hhi
  rw [hva, hvb, hvs, hsval, Nat.add_mul]
  rcases Nat.lt_or_ge ((limbsVal a * (lo + 2 ^ 32 * hi)) % 2 ^ 32
      + (limbsVal b * (lo + 2 ^ 32 * hi)) % 2 ^ 32) (2 ^ 32) with h | h
  · left; omega
  · right; omega

/-- Witness for C5: evaluates the linearity statement at
`a = b = MINIMUM` and the factor `2 ^ 32` (so `lo = 0`, `hi = 1`). -/
theorem safe_mul_fixed_point_rational_linear_mod_one_ulp_witness :
    mulResultVal (safe_mul_fixed_point_rational difficultyMINIMUM 0 1)
        + mulResultVal (safe_mul_fixed_point_rational difficultyMINIMUM 0 1)
      = mulResultVal (safe_mul_fixed_point_rational
          (toLimbs5 (limbsVal difficultyMINIMUM + limbsVal difficultyMINIMUM)) 0 1)
    ∨ mulResultVal (safe_mul_fixed_point_rational difficultyMINIMUM 0 1)
        + mulResultVal (safe_mul_fixed_point_rational difficultyMINIMUM 0 1) + 1
      = mulResultVal (safe_mul_fixed_point_rational
          (toLimbs5 (limbsVal difficultyMINIMUM + limbsVal difficultyMINIMUM)) 0 1) :=
  safe_mul_fixed_point_rational_linear_mod_one_ulp difficultyMINIMUM difficultyMINIMUM 0 1
    (by decide) (by decide) (by decide) (by decide) (by decide) (by decide)
    (by decide) (by decide) (by decide) (by decide)

lemma i64wrap_eq (x : Int) (h1 : -(2 ^ 63) ≤ x) (h2 : x < 2 ^ 63) : i64wrap x = x := by
  have : (x + 2 ^ 63) % 2 ^ 64 = x + 2 ^ 63 := Int.emod_eq_of_lt (by omega) (by omega)
  simp only [i64wrap, this]
  ring

/-- Claim C2, counterexample: at `new_timestamp = 6`, `old_timestamp = 0` and
target interval `T = 3` the error is `Δt_err = 3`, so the claimed pre-clamp
relative error `⌊Δt_err * 2 ^ 32 / T⌋` is `2 ^ 32`; but `difficulty_control`
computes `2 ^ 32 - 1`, because it floors the reciprocal `2 ^ 32 / T` before
multiplying. Both values lie strictly inside the clamp interval, so the
difference also survives clamping. -/
theorem relative_error_counterexample :
    relative_error (6 - 0) 3 = 2 ^ 32 - 1
    ∧ Int.fdiv (((6 - 0 : Int) - 3) * 2 ^ 32) 3 = 2 ^ 32
    ∧ clamped_error (6 - 0) 3 = 2 ^ 32 - 1
    ∧ relative_error (6 - 0) 3 ≠ Int.fdiv (((6 - 0 : Int) - 3) * 2 ^ 32) 3 := by
  refine ⟨by decide, by decide, by decide, by decide⟩

/-- Claim C2 (amended): for timestamps with `old ≤ new` and a positive target
interval `T`, with `Δt = new - old` and both `Δt` and `T` within `i64` range,
`difficulty_control` computes the pre-clamp relative error as
`(Δt - T) * ⌊2 ^ 32 / T⌋` — the floored reciprocal is computed first — and
then clamps it to the interval `[-1 * 2 ^ 32, 4 * 2 ^ 32]`. -/
theorem relative_error_amended (new_timestamp old_timestamp T : Nat)
    (hord : old_timestamp ≤ new_timestamp)
    (hdelta : new_timestamp - old_timestamp < 2 ^ 63)
    (hT0 : 0 < T) (hT : T < 2 ^ 63) :
    relative_error (new_timestamp - old_timestamp) T
      = (((new_timestamp : Int) - (old_timestamp : Int)) - (T : Int)) * Int.tdiv (2 ^ 32) (T : Int)
    ∧ -(2 ^ 32) ≤ clamped_error (new_timestamp - old_timestamp) T
    ∧ clamped_error (new_timestamp - old_timestamp) T ≤ 4 * 2 ^ 32
    ∧ clamped_error (new_timestamp - old_timestamp) T
      = min (4 * 2 ^ 32) (max (-(2 ^ 32))
          ((((new_timestamp : Int) - (old_timestamp : Int)) - (T : Int))
            * Int.tdiv (2 ^ 32) (T : Int))) := by
  have hcast : ((new_timestamp - old_timestamp : Nat) : Int)
      = (new_timestamp : Int) - (old_timestamp : Int) := by
    omega
  have hw1 : i64wrap ((new_timestamp - old_timestamp : Nat) : Int)
      = ((new_timestamp - old_timestamp : Nat) : Int) :=
    i64wrap_eq _ (by omega) (by exact_mod_cast hdelta)
  have hw2 : i64wrap (T : Int) = (T : Int) :=
    i64wrap_eq _ (by omega) (by exact_mod_cast hT)
  have hmain : relative_error (new_timestamp - old_timestamp) T
      = (((new_timestamp : Int) - (old_timestamp : Int)) - (T : Int))
        * Int.tdiv (2 ^ 32) (T : Int) := by
    simp only [relative_error, hw1, hw2]
    rw [i64wrap_eq _ (by omega) (by omega), hcast]
  refine ⟨hmain, ?_, ?_, ?_⟩
  · simp only [clamped_error]
    omega
  · simp only [clamped_error]
    omega
  · simp only [clamped_error, hmain]

/-- Witness for the amended C2: evaluates the statement at
`new_timestamp = 6`, `old_timestamp = 0`, `T = 3`. -/
theorem relative_error_amended_witness :
    relative_error (6 - 0) 3
      = (((6 : Nat) : Int) - ((0 : Nat) : Int) - ((3 : Nat) : Int)) * Int.tdiv (2 ^ 32) ((3 : Nat) : Int)
    ∧ -(2 ^ 32) ≤ clamped_error (6 - 0) 3
    ∧ clamped_error (6 - 0) 3 ≤ 4 * 2 ^ 32
    ∧ clamped_error (6 - 0) 3
      = min (4 * 2 ^ 32) (max (-(2 ^ 32))
          ((((6 : Nat) : Int) - ((0 : Nat) : Int) - ((3 : Nat) : Int))
            * Int.tdiv (2 ^ 32) ((3 : Nat) : Int))) :=
  relative_error_amended 6 0 3 (by decide) (by decide) (by decide) (by decide)

lemma toNat_emod_lt (x : Int) : (x % (2 ^ 32 : Int)).toNat < 2 ^ 32 := by
  have h1 : 0 ≤ x % (2 ^ 32 : Int) := Int.emod_nonneg x (by norm_num)
  have h2 : x % (2 ^ 32 : Int) < 2 ^ 32 := Int.emod_lt_of_pos x (by norm_num)
  omega

/-- Claim C8: whenever `MINIMUM ≤ old_difficulty ≤ MAXIMUM` (the upper bound
is automatic for 5 well-formed limbs) and the target interval is positive,
the difficulty returned by `difficulty_control` also satisfies
`MINIMUM ≤ result ≤ MAXIMUM`; the genesis case returns `old_difficulty`
unchanged, and on multiplication overflow the result saturates to `MAXIMUM`.
Values are compared through `limbsVal`; `MINIMUM` has value `1000` and
`MAXIMUM` has value `2 ^ 160 - 1`. -/
theorem difficulty_control_range (new_timestamp old_timestamp T : Nat)
    (old_difficulty : List Nat) (g : Bool)
    (h5 : old_difficulty.length = 5) (hbd : ∀ x ∈ old_difficulty, x < 2 ^ 32)
    (hmin : 1000 ≤ limbsVal old_difficulty) (hT0 : 0 < T) :
    (g = true → difficulty_control new_timestamp old_timestamp old_difficulty T g = old_difficulty)
    ∧ 1000 ≤ limbsVal (difficulty_control new_timestamp old_timestamp old_difficulty T g)
    ∧ limbsVal (difficulty_control new_timestamp old_timestamp old_difficulty T g) ≤ 2 ^ 160 - 1
    ∧ (g = false →
        0 < (safe_mul_fixed_point_rational old_difficulty
            ((one_plus_p_times_error (new_timestamp - old_timestamp) T % 2 ^ 32).toNat)
            ((Int.fdiv (one_plus_p_times_error (new_timestamp - old_timestamp) T) (2 ^ 32)
              % 2 ^ 32).toNat)).2 →
        difficulty_control new_timestamp old_timestamp old_difficulty T g = difficultyMAXIMUM) := by
  rcases g with _ | _
  · -- non-genesis case: the control signal is applied
    have hup : limbsVal old_difficulty < 2 ^ 160 := by
      have := limbsVal_lt old_difficulty hbd
      rw [h5] at this
      norm_num at this
      exact this
    set lo : Nat := (one_plus_p_times_error (new_timestamp - old_timestamp) T % 2 ^ 32).toNat
      with hlo_def
    set hi : Nat := (Int.fdiv (one_plus_p_times_error (new_timestamp - old_timestamp) T) (2 ^ 32)
        % 2 ^ 32).toNat with hhi_def
    have hlo : lo < 2 ^ 32 := toNat_emod_lt _
    have hhi : hi < 2 ^ 32 := toNat_emod_lt _
    obtain ⟨-, hrb, hrlen, -⟩ := safe_mul_spec old_difficulty lo hi h5 hbd hlo hhi
    have hrup : limbsVal (safe_mul_fixed_point_rational old_difficulty lo hi).1 < 2 ^ 160 := by
      have := limbsVal_lt (safe_mul_fixed_point_rational old_difficulty lo hi).1 hrb
      rw [hrlen] at this
      norm_num at this
      exact this
    have hcontrol : difficulty_control new_timestamp old_timestamp old_difficulty T false
        = if 0 < (safe_mul_fixed_point_rational old_difficulty lo hi).2 then difficultyMAXIMUM
          else if difficultyCmp (safe_mul_fixed_point_rational old_difficulty lo hi).1
              difficultyMINIMUM = Ordering.lt then difficultyMINIMUM
          else (safe_mul_fixed_point_rational old_difficulty lo hi).1 := by
      simp only [difficulty_control, Bool.false_eq_true, if_false, hlo_def, hhi_def]
    have hmaxval : limbsVal difficultyMAXIMUM = 2 ^ 160 - 1 := by decide
    have hminval : limbsVal difficultyMINIMUM = 1000 := by decide
    refine ⟨fun h => Bool.noConfusion h, ?_, ?_, ?_⟩
    · rw [hcontrol]
      split
      · omega
      · split
        · omega
        · rename_i hnotlt
          have := (difficultyCmp_lt_MINIMUM _ hrlen hrb).not.mp hnotlt
          omega
    · rw [hcontrol]
      split
      · omega
      · split
        · omega
        · omega
    · intro _ hov
      rw [hcontrol]
      rw [if_pos hov]
  · -- genesis case: old difficulty is returned unchanged
    have hup : limbsVal old_difficulty < 2 ^ 160 := by
      have := limbsVal_lt old_difficulty hbd
      rw [h5] at this
      norm_num at this
      exact this
    have hgen : difficulty_control new_timestamp old_timestamp old_difficulty T true
        = old_difficulty := by
      simp [difficulty_control]
    refine ⟨fun _ => hgen, ?_, ?_, ?_⟩
    · rw [hgen]; exact hmin
    · rw [hgen]; omega
    · intro h; cases h

/-- Witness for C8: evaluates the range invariant at `new_timestamp = 600`,
`old_timestamp = 0`, `T = 600`, `old_difficulty = MINIMUM`, non-genesis. -/
theorem difficulty_control_range_witness :
    (false = true → difficulty_control 600 0 difficultyMINIMUM 600 false = difficultyMINIMUM)
    ∧ 1000 ≤ limbsVal (difficulty_control 600 0 difficultyMINIMUM 600 false)
    ∧ limbsVal (difficulty_control 600 0 difficultyMINIMUM 600 false) ≤ 2 ^ 160 - 1
    ∧ (false = false →
        0 < (safe_mul_fixed_point_rational difficultyMINIMUM
            ((one_plus_p_times_error (600 - 0) 600 % 2 ^ 32).toNat)
            ((Int.fdiv (one_plus_p_times_error (600 - 0) 600) (2 ^ 32) % 2 ^ 32).toNat)).2 →
        difficulty_control 600 0 difficultyMINIMUM 600 false = difficultyMAXIMUM) :=
  difficulty_control_range 600 0 600 difficultyMINIMUM false (by decide) (by decide)
    (by decide) (by decide)

/-! ## ActiveWindow (active_window.rs)

The active window of the sliding-window Bloom filter is a multiset of
`u32` indices, stored as the vector `sbf`. The `Chunk` type
(`chunk.rs` is not among the sources) is modelled from the spec and from
the ActiveWindow test suite, which exposes it as a list of relative
indices (`relative_indices`), produced by `from_indices` and read back by
`to_indices`. `Vec::sort` is embedded as insertion sort, which sorts
stably like the source. The Bloom filter parameters live in the missing
`shared.rs`; the spec fixes only that `WINDOW_SIZE` is a multiple of
`CHUNK_SIZE`, so representative concrete values are used.
-/

/-- Modelled from the spec: the chunk width in bits; `shared.rs` is missing. -/
def CHUNK_SIZE : Nat := 4096

/-- Modelled from the spec: the window width in bits, a multiple of
`CHUNK_SIZE`; `shared.rs` is missing. -/
def WINDOW_SIZE : Nat := 1048576

/-- Modelled from the spec: additions per window slide; `shared.rs` is missing. -/
def BATCH_SIZE : Nat := 8

/-- Modelled from the spec: a Bloom filter chunk, as the list of its set
(relative) indices; `chunk.rs` is missing from the sources. -/
structure Chunk where
  relative_indices : List Nat
deriving DecidableEq, Repr

/-- Modelled from the spec: `Chunk::from_indices`. -/
def Chunk.from_indices (indices : List Nat) : Chunk := ⟨indices⟩

/-- Modelled from the spec: `Chunk::to_indices`. -/
def Chunk.to_indices (c : Chunk) : List Nat := c.relative_indices

/-- `ActiveWindow`: a sparse Bloom filter represented by the multiset `sbf`
of set indices. -/
structure ActiveWindow where
  sbf : List Nat
deriving DecidableEq, Repr

/-- `ActiveWindow::slice(interval)`: copy the indices inside the interval
and subtract the lower bound. -/
def ActiveWindow.slice (aw : ActiveWindow) (start stop : Nat) : List Nat :=
  (aw.sbf.filter (fun l => decide (start ≤ l) && decide (l < stop))).map (fun l => l - start)

/-- `ActiveWindow::slid_chunk()`: the part of the window that becomes
inactive on the next slide. -/
def ActiveWindow.slid_chunk (aw : ActiveWindow) : Chunk :=
  Chunk.from_indices (aw.slice 0 CHUNK_SIZE)

/-- `ActiveWindow::zerofy(lower, upper)`: drop every index in
`[lower, upper)` (the source locates the positions of those indices and
removes them one by one, which filters them out). -/
def ActiveWindow.zerofy (aw : ActiveWindow) (lower upper : Nat) : ActiveWindow :=
  ⟨aw.sbf.filter (fun l => !(decide (lower ≤ l) && decide (l < upper)))⟩

/-- `ActiveWindow::slide_window()`: zerofy `[0, CHUNK_SIZE)`, then subtract
`CHUNK_SIZE` from the remaining indices. -/
def ActiveWindow.slide_window (aw : ActiveWindow) : ActiveWindow :=
  ⟨(aw.zerofy 0 CHUNK_SIZE).sbf.map (fun l => l - CHUNK_SIZE)⟩

/-- `ActiveWindow::hasset(lower, upper)`: is any index inside the interval
set? -/
def ActiveWindow.hasset (aw : ActiveWindow) (lower upper : Nat) : Bool :=
  aw.sbf.any (fun l => decide (lower ≤ l) && decide (l < upper))

/-- `ActiveWindow::slide_window_back(chunk)`: assert that the topmost chunk
of the window is empty (`none` models the assertion failure), add
`CHUNK_SIZE` to every index, push the chunk indices, sort. -/
def ActiveWindow.slide_window_back (aw : ActiveWindow) (chunk : Chunk) : Option ActiveWindow :=
  if aw.hasset (WINDOW_SIZE - CHUNK_SIZE) WINDOW_SIZE then none
  else some ⟨List.insertionSort (· ≤ ·)
    ((aw.sbf.map (fun l => l + CHUNK_SIZE)) ++ chunk.to_indices)⟩

/-- Claim C6, counterexample: the round trip re-sorts the window, so an
ActiveWindow whose indices are all below `WINDOW_SIZE` but not sorted (an
object the claim quantifies over, though the data structure invariant
excludes it) is not reproduced: `[4097, 4096]` comes back as
`[4096, 4097]`. -/
theorem slide_window_round_trip_counterexample :
    (∀ x ∈ (ActiveWindow.mk [4097, 4096]).sbf, x < WINDOW_SIZE)
    ∧ ActiveWindow.slide_window_back
        (ActiveWindow.slide_window (ActiveWindow.mk [4097, 4096]))
        (ActiveWindow.slid_chunk (ActiveWindow.mk [4097, 4096]))
      ≠ some (ActiveWindow.mk [4097, 4096]) := by
  decide

/-- Claim C6 (amended): for every ActiveWindow whose indices are sorted (the
data structure invariant) and all strictly below `WINDOW_SIZE`, taking
`chunk = slid_chunk()`, applying `slide_window()` and then
`slide_window_back(chunk)` yields the original ActiveWindow. -/
theorem slide_window_round_trip (aw : ActiveWindow)
    (hsorted : List.Sorted (· ≤ ·) aw.sbf)
    (hlt : ∀ x ∈ aw.sbf, x < WINDOW_SIZE) :
    ActiveWindow.slide_window_back (ActiveWindow.slide_window aw) (ActiveWindow.slid_chunk aw)
      = some aw := by
  have hlow : aw.slice 0 CHUNK_SIZE = aw.sbf.filter (fun l => decide (l < CHUNK_SIZE)) := by
    show (aw.sbf.filter (fun l => decide (0 ≤ l) && decide (l < CHUNK_SIZE))).map
        (fun l => l - 0) = _
    rw [List.filter_congr (fun x _ => by simp : ∀ x ∈ aw.sbf,
      (decide (0 ≤ x) && decide (x < CHUNK_SIZE)) = decide (x < CHUNK_SIZE))]
    simp
  have hhigh : (aw.zerofy 0 CHUNK_SIZE).sbf
      = aw.sbf.filter (fun l => !decide (l < CHUNK_SIZE)) := by
    show aw.sbf.filter (fun l => !(decide (0 ≤ l) && decide (l < CHUNK_SIZE))) = _
    exact List.filter_congr (fun x _ => by simp)
  have hslid : (ActiveWindow.slide_window aw).sbf
      = (aw.sbf.filter (fun l => !decide (l < CHUNK_SIZE))).map (fun l => l - CHUNK_SIZE) := by
    show (aw.zerofy 0 CHUNK_SIZE).sbf.map (fun l => l - CHUNK_SIZE) = _
    rw [hhigh]
  have hnoset : (ActiveWindow.slide_window aw).hasset (WINDOW_SIZE - CHUNK_SIZE) WINDOW_SIZE
      = false := by
    rw [ActiveWindow.hasset, hslid]
    rw [List.any_eq_false]
    intro y hy
    rcases List.mem_map.mp hy with ⟨x, hxmem, hxeq⟩
    have hxC : ¬ x < CHUNK_SIZE := by
      have := List.of_mem_filter hxmem
      simpa using this
    have hxW : x < WINDOW_SIZE := hlt x (List.mem_of_mem_filter hxmem)
    subst hxeq
    have hCW : CHUNK_SIZE ≤ WINDOW_SIZE := by decide
    have hxb : ¬ (WINDOW_SIZE - CHUNK_SIZE ≤ x - CHUNK_SIZE) := by omega
    simp [hxb]
  rw [ActiveWindow.slide_window_back, hnoset, if_neg (by decide : ¬ (false = true))]
  congr 1
  -- the re-shifted high part is the original high part
  have hmapmap : ((ActiveWindow.slide_window aw).sbf.map (fun l => l + CHUNK_SIZE))
      = aw.sbf.filter (fun l => !decide (l < CHUNK_SIZE)) := by
    rw [hslid, List.map_map]
    have : ∀ x ∈ aw.sbf.filter (fun l => !decide (l < CHUNK_SIZE)),
        ((fun l => l + CHUNK_SIZE) ∘ fun l => l - CHUNK_SIZE) x = id x := by
      intro x hx
      have hxC : ¬ x < CHUNK_SIZE := by
        have := List.of_mem_filter hx
        simpa using this
      simp only [Function.comp_apply, id_eq]
      omega
    rw [List.map_congr_left this, List.map_id]
  have hchunk : (ActiveWindow.slid_chunk aw).to_indices
      = aw.sbf.filter (fun l => decide (l < CHUNK_SIZE)) := by
    show (aw.slice 0 CHUNK_SIZE) = _
    exact hlow
  rw [hmapmap, hchunk]
  have heta : aw = ActiveWindow.mk aw.sbf := rfl
  conv_rhs => rw [heta]
  simp only [ActiveWindow.mk.injEq]
  -- a sorted permutation of a sorted list is that list
  apply List.eq_of_perm_of_sorted (r := (· ≤ ·))
  · exact ((List.perm_insertionSort _ _).trans List.perm_append_comm).trans
      (List.filter_append_perm (fun l => decide (l < CHUNK_SIZE)) aw.sbf)
  · exact List.sorted_insertionSort _ _
  · exact hsorted

/-- Witness for the amended C6: evaluates the round trip at the sorted
window `[5, 4096, 5000]`. -/
theorem slide_window_round_trip_witness :
    List.Sorted (· ≤ ·) (ActiveWindow.mk [5, 4096, 5000]).sbf
    ∧ (∀ x ∈ (ActiveWindow.mk [5, 4096, 5000]).sbf, x < WINDOW_SIZE)
    ∧ ActiveWindow.slide_window_back
        (ActiveWindow.slide_window (ActiveWindow.mk [5, 4096, 5000]))
        (ActiveWindow.slid_chunk (ActiveWindow.mk [5, 4096, 5000]))
      = some (ActiveWindow.mk [5, 4096, 5000]) :=
  ⟨by decide, by decide, slide_window_round_trip (ActiveWindow.mk [5, 4096, 5000])
    (by decide) (by decide)⟩

/-! ## Mutator set core (set_commitment.rs)

`SetCommitment` combines the AOCL MMR, the inactive-SWBF MMR and the
active window. The MMR accumulator and its membership proofs come from an
external crate and are modelled from the spec: an MMR is embedded as its
list of leaves, a membership proof carries the claimed leaf index
(`data_index`), and an authentication path verifies against the peaks iff
the leaf at that index equals the claimed leaf. Digests are embedded as
`Nat`; the hash functions of the generic hasher `H` are taken as function
parameters. The bit accessors `get_bit`/`set_bit` called on chunks and on
the active window are modelled from the spec (on the multiset
representation a bit is set iff the index occurs; setting pushes the index
and re-sorts, like `ActiveWindow::insert`). -/

/-- `AdditionRecord`: the canonical commitment to the added item. -/
structure AdditionRecord where
  canonical_commitment : Nat
deriving DecidableEq, Repr

/-- Modelled from the spec: an MMR membership proof, reduced to the leaf
index it authenticates (`data_index`); the MMR crate is external. -/
structure MmrMembershipProof where
  data_index : Nat
deriving DecidableEq, Repr

/-- Modelled from the spec: `MmrMembershipProof::verify` against the peaks
of an MMR holds exactly when the committed leaf at `data_index` is the
claimed leaf; the MMR is embedded as its leaf list. -/
def mmrVerify (leaves : List Nat) (mp : MmrMembershipProof) (leaf : Nat) : Bool :=
  decide (leaves.get? mp.data_index = some leaf)

/-- `MsMembershipProof` (ms_membership_proof.rs is missing from the
sources; the fields are those used by set_commitment.rs): randomness, the
AOCL authentication path, the chunk dictionary mapping chunk indices to an
MMR proof and a chunk, and the optional cached bit indices. -/
structure MsMembershipProof where
  randomness : Nat
  auth_path_aocl : MmrMembershipProof
  target_chunks : List (Nat × (MmrMembershipProof × Chunk))
  cached_bits : Option (List Nat)
deriving DecidableEq, Repr

/-- `RemovalRecord`: the Bloom filter bit indices of the removed item and
its chunk dictionary. -/
structure RemovalRecord where
  bit_indices : List Nat
  target_chunks : List (Nat × (MmrMembershipProof × Chunk))
deriving DecidableEq, Repr

/-- `SetCommitment<H, MMR>`: AOCL MMR, inactive-SWBF MMR (both as leaf
lists) and the active window. -/
structure SetCommitment where
  aocl : List Nat
  swbf_inactive : List Nat
  swbf_active : ActiveWindow
deriving DecidableEq, Repr

/-- Modelled from the spec: `Chunk::get_bit` — on the index-list
representation a bit is set iff the index occurs. -/
def Chunk.get_bit (c : Chunk) (index : Nat) : Bool :=
  decide (index ∈ c.relative_indices)

/-- Modelled from the spec: `Chunk::set_bit` — push the index and re-sort,
like `ActiveWindow::insert`. -/
def Chunk.set_bit (c : Chunk) (index : Nat) : Chunk :=
  ⟨List.insertionSort (· ≤ ·) (c.relative_indices ++ [index])⟩

/-- Modelled from the spec: `ActiveWindow::get_bit` (used by
set_commitment.rs; absent from the given active_window.rs). -/
def ActiveWindow.get_bit (aw : ActiveWindow) (index : Nat) : Bool :=
  decide (index ∈ aw.sbf)

/-- Modelled from the spec: `ActiveWindow::set_bit` — insert the index. -/
def ActiveWindow.set_bit (aw : ActiveWindow) (index : Nat) : ActiveWindow :=
  ⟨List.insertionSort (· ≤ ·) (aw.sbf ++ [index])⟩

/-- `SetCommitment::window_slides(added_index)`. -/
def window_slides (added_index : Nat) : Bool :=
  decide (added_index ≠ 0) && decide (added_index % BATCH_SIZE = 0)

/-- `SetCommitment::get_batch_index()`. -/
def get_batch_index (ms : SetCommitment) : Nat :=
  match ms.aocl.length with
  | 0 => 0
  | n => (n - 1) / BATCH_SIZE

/-- `SetCommitment::add_helper(addition_record)`: append the canonical
commitment to the AOCL; if the window slides, hash the slid chunk into the
inactive-SWBF MMR, slide the window, and return the new chunk with its
index. The mutated state is returned alongside the optional chunk. -/
def add_helper (hashChunk : Chunk → Nat) (ms : SetCommitment)
    (addition_record : AdditionRecord) : SetCommitment × Option (Nat × Chunk) :=
  let item_index := ms.aocl.length
  let aocl2 := ms.aocl ++ [addition_record.canonical_commitment]
  if window_slides item_index then
    let chunk := ms.swbf_active.slid_chunk
    let chunk_digest := hashChunk chunk
    let swbf_inactive2 := ms.swbf_inactive ++ [chunk_digest]
    let swbf_active2 := ms.swbf_active.slide_window
    let chunk_index_for_inserted_chunk := swbf_inactive2.length - 1
    ({ aocl := aocl2, swbf_inactive := swbf_inactive2, swbf_active := swbf_active2 },
      some (chunk_index_for_inserted_chunk, chunk))
  else
    ({ ms with aocl := aocl2 }, none)

lemma window_slides_iff (n : Nat) :
    window_slides n = true ↔ (n ≠ 0 ∧ n % BATCH_SIZE = 0) := by
  simp [window_slides]

/-- Claim C4 statement. -/
theorem add_helper_spec (hashChunk : Chunk → Nat) (ms : SetCommitment)
    (ar : AdditionRecord) :
    (add_helper hashChunk ms ar).1.aocl = ms.aocl ++ [ar.canonical_commitment]
    ∧ ((add_helper hashChunk ms ar).2 ≠ none ↔
        ((ms.aocl.length + 1 - 1) % BATCH_SIZE = 0 ∧ ms.aocl.length + 1 > 1))
    ∧ (∀ ci chunk, (add_helper hashChunk ms ar).2 = some (ci, chunk) →
        chunk = ms.swbf_active.slid_chunk
        ∧ (add_helper hashChunk ms ar).1.swbf_inactive
            = ms.swbf_inactive ++ [hashChunk chunk]
        ∧ (add_helper hashChunk ms ar).1.swbf_active = ms.swbf_active.slide_window
        ∧ ci = (add_helper hashChunk ms ar).1.swbf_inactive.length - 1)
    ∧ ((add_helper hashChunk ms ar).2 = none →
        (add_helper hashChunk ms ar).1.swbf_inactive = ms.swbf_inactive
        ∧ (add_helper hashChunk ms ar).1.swbf_active = ms.swbf_active) := by
  have hc_iff : ((ms.aocl.length + 1 - 1) % BATCH_SIZE = 0 ∧ ms.aocl.length + 1 > 1)
      ↔ (ms.aocl.length ≠ 0 ∧ ms.aocl.length % BATCH_SIZE = 0) := by
    rw [Nat.add_sub_cancel]
    constructor
    · rintro ⟨h1, h2⟩
      exact ⟨by omega, h1⟩
    · rintro ⟨h1, h2⟩
      exact ⟨h2, by omega⟩
  by_cases hcase : ms.aocl.length ≠ 0 ∧ ms.aocl.length % BATCH_SIZE = 0
  · have hws : window_slides ms.aocl.length = true := (window_slides_iff _).mpr hcase
    simp only [add_helper, hws, if_true]
    refine ⟨by trivial, iff_of_true (by simp) (hc_iff.mpr hcase), ?_, ?_⟩
    · intro ci chunk h
      simp only [Option.some.injEq, Prod.mk.injEq] at h
      obtain ⟨h1, h2⟩ := h
      subst h1
      subst h2
      exact ⟨by trivial, by trivial, by trivial, by trivial⟩
    · intro h
      cases h
  · have hws : window_slides ms.aocl.length = false := by
      rw [Bool.eq_false_iff, Ne, window_slides_iff]
      exact hcase
    simp only [add_helper, hws, Bool.false_eq_true, if_false]
    refine ⟨by trivial, iff_of_false (by simp) (fun hc => hcase (hc_iff.mp hc)), ?_, ?_⟩
    · intro ci chunk h
      cases h
    · intro _
      exact ⟨by trivial, by trivial⟩

/-- Modelled from the spec (`shared.rs` is missing): partition a list of
bit indices by chunk index `i / CHUNK_SIZE`. The source builds a `HashMap`,
whose iteration order does not affect any verdict computed from it; the
embedding lists the groups in ascending key order. -/
def bit_indices_to_hash_map (all_bit_indices : List Nat) : List (Nat × List Nat) :=
  (List.insertionSort (· ≤ ·) ((all_bit_indices.map (fun i => i / CHUNK_SIZE)).dedup)).map
    (fun ci => (ci, all_bit_indices.filter (fun i => decide (i / CHUNK_SIZE = ci))))

/-- The labelled loop of `SetCommitment::verify` over the chunk groups:
carries the accumulators `entries_in_dictionary`, `all_auth_paths_are_valid`
and `has_unset_bits`, and breaks out (returning with
`entries_in_dictionary = false`) when a chunk is missing from the
dictionary. -/
def verifyLoop (hashChunk : Chunk → Nat) (ms : SetCommitment) (mp : MsMembershipProof)
    (current_batch_index window_start : Nat) :
    List (Nat × List Nat) → Bool → Bool → Bool → Bool × Bool × Bool
  | [], entries, paths, unset => (entries, paths, unset)
  | (chunk_index, bit_indices) :: rest, entries, paths, unset =>
    if chunk_index < current_batch_index then
      match mp.target_chunks.lookup chunk_index with
      | none => (false, paths, unset)
      | some mp_and_chunk =>
        verifyLoop hashChunk ms mp current_batch_index window_start rest entries
          (paths && mmrVerify ms.swbf_inactive mp_and_chunk.1 (hashChunk mp_and_chunk.2))
          (unset || bit_indices.any (fun b => !(mp_and_chunk.2.get_bit (b % CHUNK_SIZE))))
    else
      verifyLoop hashChunk ms mp current_batch_index window_start rest entries paths
        (unset || bit_indices.any (fun b => !(ms.swbf_active.get_bit (b - window_start))))

/-- `SetCommitment::verify(item, membership_proof)`. The index derivation
`get_swbf_indices` samples through the external hasher in counter mode and
its deduplicating loop terminates only with probability 1, so it enters the
embedding as the oracle parameter `getIndices`; `hashPair` and `hashChunk`
embed `H::hash_pair` and `H::hash`. -/
def verify (getIndices : Nat → Nat → Nat → List Nat) (hashPair : Nat → Nat → Nat)
    (hashChunk : Chunk → Nat) (ms : SetCommitment) (item : Nat)
    (membership_proof : MsMembershipProof) : Bool :=
  if ms.aocl.length ≤ membership_proof.auth_path_aocl.data_index then false
  else
    let leaf := hashPair item membership_proof.randomness
    let is_aocl_member := mmrVerify ms.aocl membership_proof.auth_path_aocl leaf
    if is_aocl_member = false then false
    else
      let current_batch_index := get_batch_index ms
      let window_start := current_batch_index * CHUNK_SIZE
      let all_bit_indices :=
        match membership_proof.cached_bits with
        | some bits => bits
        | none => getIndices item membership_proof.randomness
            membership_proof.auth_path_aocl.data_index
      let st := verifyLoop hashChunk ms membership_proof current_batch_index window_start
        (bit_indices_to_hash_map all_bit_indices) true true false
      is_aocl_member && st.1 && st.2.1 && st.2.2

/-- Spec-side form of `verify` for claim C3: the verdict as one conjunction —
the AOCL leaf index exists, the AOCL authentication path verifies, every
derived chunk group below the batch index has its chunk in the dictionary
with a valid MMR authentication path, and at least one derived bit (in a
dictionary chunk or in the active window) is unset. -/
def verifyConjunction (getIndices : Nat → Nat → Nat → List Nat) (hashPair : Nat → Nat → Nat)
    (hashChunk : Chunk → Nat) (ms : SetCommitment) (item : Nat)
    (mp : MsMembershipProof) : Bool :=
  let current_batch_index := get_batch_index ms
  let window_start := current_batch_index * CHUNK_SIZE
  let all_bit_indices :=
    match mp.cached_bits with
    | some bits => bits
    | none => getIndices item mp.randomness mp.auth_path_aocl.data_index
  let groups := bit_indices_to_hash_map all_bit_indices
  decide (mp.auth_path_aocl.data_index < ms.aocl.length)
  && mmrVerify ms.aocl mp.auth_path_aocl (hashPair item mp.randomness)
  && groups.all (fun g =>
      if g.1 < current_batch_index then
        match mp.target_chunks.lookup g.1 with
        | none => false
        | some mc => mmrVerify ms.swbf_inactive mc.1 (hashChunk mc.2)
      else true)
  && groups.any (fun g =>
      if g.1 < current_batch_index then
        match mp.target_chunks.lookup g.1 with
        | none => false
        | some mc => g.2.any (fun b => !(mc.2.get_bit (b % CHUNK_SIZE)))
      else g.2.any (fun b => !(ms.swbf_active.get_bit (b - window_start))))

lemma verifyLoop_verdict (hashChunk : Chunk → Nat) (ms : SetCommitment)
    (mp : MsMembershipProof) (batch ws : Nat) :
    ∀ (groups : List (Nat × List Nat)) (paths unset : Bool),
    ((verifyLoop hashChunk ms mp batch ws groups true paths unset).1
      && (verifyLoop hashChunk ms mp batch ws groups true paths unset).2.1
      && (verifyLoop hashChunk ms mp batch ws groups true paths unset).2.2)
    = ((groups.all (fun g =>
          if g.1 < batch then
            match mp.target_chunks.lookup g.1 with
            | none => false
            | some mc => mmrVerify ms.swbf_inactive mc.1 (hashChunk mc.2)
          else true) && paths)
        && (unset || groups.any (fun g =>
          if g.1 < batch then
            match mp.target_chunks.lookup g.1 with
            | none => false
            | some mc => g.2.any (fun b => !(mc.2.get_bit (b % CHUNK_SIZE)))
          else g.2.any (fun b => !(ms.swbf_active.get_bit (b - ws)))))) := by
  intro groups
  induction groups with
  | nil =>
    intro paths unset
    simp [verifyLoop]
  | cons g rest ih =>
    intro paths unset
    rcases g with ⟨chunk_index, bit_indices⟩
    by_cases hci : chunk_index < batch
    · rcases hlk : mp.target_chunks.lookup chunk_index with _ | mc
      · have hunfold : verifyLoop hashChunk ms mp batch ws
            ((chunk_index, bit_indices) :: rest) true paths unset = (false, paths, unset) := by
          simp [verifyLoop, hci, hlk]
        rw [hunfold]
        simp [List.all_cons, hci, hlk]
      · have hunfold : verifyLoop hashChunk ms mp batch ws
            ((chunk_index, bit_indices) :: rest) true paths unset
            = verifyLoop hashChunk ms mp batch ws rest true
              (paths && mmrVerify ms.swbf_inactive mc.1 (hashChunk mc.2))
              (unset || bit_indices.any (fun b => !(mc.2.get_bit (b % CHUNK_SIZE)))) := by
          simp [verifyLoop, hci, hlk]
        rw [hunfold, ih]
        simp only [List.all_cons, List.any_cons, hci, if_true, hlk]
        cases mmrVerify ms.swbf_inactive mc.1 (hashChunk mc.2) <;>
          cases paths <;> cases unset <;> simp
    · have hunfold : verifyLoop hashChunk ms mp batch ws
          ((chunk_index, bit_indices) :: rest) true paths unset
          = verifyLoop hashChunk ms mp batch ws rest true paths
            (unset || bit_indices.any (fun b => !(ms.swbf_active.get_bit (b - ws)))) := by
        simp [verifyLoop, hci]
      rw [hunfold, ih]
      simp only [List.all_cons, List.any_cons, hci, if_false]
      cases paths <;> cases unset <;> simp

/-- Claim C3: `verify(item, mp)` returns `false` whenever
`aocl.leaves ≤ mp.aocl_leaf_index`, and in general its verdict equals the
spec conjunction `verifyConjunction`: AOCL membership, dictionary
completeness with valid MMR authentication paths for every derived chunk
group below the batch index, and at least one unset derived bit. -/
theorem verify_eq_conjunction (getIndices : Nat → Nat → Nat → List Nat)
    (hashPair : Nat → Nat → Nat) (hashChunk : Chunk → Nat) (ms : SetCommitment)
    (item : Nat) (mp : MsMembershipProof) :
    (ms.aocl.length ≤ mp.auth_path_aocl.data_index →
      verify getIndices hashPair hashChunk ms item mp = false)
    ∧ verify getIndices hashPair hashChunk ms item mp
      = verifyConjunction getIndices hashPair hashChunk ms item mp := by
  by_cases hguard : ms.aocl.length ≤ mp.auth_path_aocl.data_index
  · have hv : verify getIndices hashPair hashChunk ms item mp = false := by
      simp [verify, hguard]
    refine ⟨fun _ => hv, ?_⟩
    rw [hv]
    have : decide (mp.auth_path_aocl.data_index < ms.aocl.length) = false := by
      simp
      omega
    simp [verifyConjunction, this]
  · have hlt : mp.auth_path_aocl.data_index < ms.aocl.length := by omega
    refine ⟨fun h => absurd h hguard, ?_⟩
    by_cases haocl : mmrVerify ms.aocl mp.auth_path_aocl (hashPair item mp.randomness) = false
    · have hv : verify getIndices hashPair hashChunk ms item mp = false := by
        simp [verify, hguard, haocl]
      rw [hv]
      simp [verifyConjunction, haocl]
    · have haocl2 : mmrVerify ms.aocl mp.auth_path_aocl (hashPair item mp.randomness) = true := by
        rcases Bool.eq_false_or_eq_true
          (mmrVerify ms.aocl mp.auth_path_aocl (hashPair item mp.randomness)) with h | h
        · exact h
        · exact absurd h haocl
      have hv : verify getIndices hashPair hashChunk ms item mp
          = (mmrVerify ms.aocl mp.auth_path_aocl (hashPair item mp.randomness)
            && (verifyLoop hashChunk ms mp (get_batch_index ms)
                (get_batch_index ms * CHUNK_SIZE)
                (bit_indices_to_hash_map
                  (match mp.cached_bits with
                   | some bits => bits
                   | none => getIndices item mp.randomness mp.auth_path_aocl.data_index))
                true true false).1
            && (verifyLoop hashChunk ms mp (get_batch_index ms)
                (get_batch_index ms * CHUNK_SIZE)
                (bit_indices_to_hash_map
                  (match mp.cached_bits with
                   | some bits => bits
                   | none => getIndices item mp.randomness mp.auth_path_aocl.data_index))
                true true false).2.1
            && (verifyLoop hashChunk ms mp (get_batch_index ms)
                (get_batch_index ms * CHUNK_SIZE)
                (bit_indices_to_hash_map
                  (match mp.cached_bits with
                   | some bits => bits
                   | none => getIndices item mp.randomness mp.auth_path_aocl.data_index))
                true true false).2.2) := by
        simp only [verify]
        rw [if_neg hguard, if_neg (by rw [haocl2]; exact fun h => Bool.noConfusion h)]
      rw [hv, haocl2]
      have hloop := verifyLoop_verdict hashChunk ms mp (get_batch_index ms)
        (get_batch_index ms * CHUNK_SIZE)
        (bit_indices_to_hash_map
          (match mp.cached_bits with
           | some bits => bits
           | none => getIndices item mp.randomness mp.auth_path_aocl.data_index)) true false
      simp only [Bool.true_and, Bool.and_assoc] at hloop ⊢
      rw [hloop]
      simp [verifyConjunction, haocl2, hlt, Bool.and_assoc]

/-- `RemovalRecord::get_chunk_index_to_bit_indices()` (removal_record.rs is
missing from the sources; per the spec it partitions the bit indices of the
record by chunk index, exactly `bit_indices_to_hash_map`). -/
def RemovalRecord.get_chunk_index_to_bit_indices (rr : RemovalRecord) : List (Nat × List Nat) :=
  bit_indices_to_hash_map rr.bit_indices

/-- One iteration of the active-window arm of the bit loop in
`SetCommitment::remove_helper`: record the bit index if its Bloom filter
bit was unset, then set the bit. -/
def activeBitStep (window_start : Nat) (st : ActiveWindow × List Nat) (bit_index : Nat) :
    ActiveWindow × List Nat :=
  let relative_index := bit_index - window_start
  let was_set := st.1.get_bit relative_index
  (st.1.set_bit relative_index, if was_set then st.2 else st.2 ++ [bit_index])

/-- One iteration of the dictionary-chunk arm of the bit loop in
`SetCommitment::remove_helper`. -/
def chunkBitStep (st : Chunk × List Nat) (bit_index : Nat) : Chunk × List Nat :=
  let relative_bit_index := bit_index % CHUNK_SIZE
  let was_set := st.1.get_bit relative_bit_index
  (st.1.set_bit relative_bit_index, if was_set then st.2 else st.2 ++ [bit_index])

/-- In-place update of one dictionary entry (the effect of
`dictionary.get_mut(&chunk_index)` followed by mutating the chunk). -/
def dictUpdate (dict : List (Nat × (MmrMembershipProof × Chunk))) (key : Nat)
    (chunk : Chunk) : List (Nat × (MmrMembershipProof × Chunk)) :=
  dict.map (fun e => if e.1 = key then (e.1, (e.2.1, chunk)) else e)

/-- The group loop of `SetCommitment::remove_helper`: for every chunk group,
flip the bits in the active window (groups at or above the batch index) or
in the dictionary chunk (`none` models the `unwrap` panic on a missing
chunk), collecting the indices whose bits were newly set. -/
def removeLoop (batch ws : Nat) :
    List (Nat × List Nat) → ActiveWindow → List (Nat × (MmrMembershipProof × Chunk)) →
    List Nat →
    Option (ActiveWindow × List (Nat × (MmrMembershipProof × Chunk)) × List Nat)
  | [], active, dict, diff => some (active, dict, diff)
  | (chunk_index, bit_indices) :: rest, active, dict, diff =>
    if batch ≤ chunk_index then
      let st := bit_indices.foldl (activeBitStep ws) (active, diff)
      removeLoop batch ws rest st.1 dict st.2
    else
      match dict.lookup chunk_index with
      | none => none
      | some mc =>
        let st := bit_indices.foldl chunkBitStep (mc.2, diff)
        removeLoop batch ws rest active (dictUpdate dict chunk_index st.1) st.2

/-- Modelled from the spec: `Mmr::batch_mutate_leaf_and_update_mps` with no
membership proofs to preserve — overwrite the leaf under each
authentication path with the new digest. -/
def batch_mutate_leaf (leaves : List Nat) (mutation_data : List (MmrMembershipProof × Nat)) :
    List Nat :=
  mutation_data.foldl (fun ls m => ls.set m.1.data_index m.2) leaves

/-- `SetCommitment::remove_helper(removal_record)`: flip all bits named by
the removal record, apply the batch mutation to the inactive-SWBF MMR, and
return the updated state together with the updated chunks and the sorted
list of indices whose bits went from 0 to 1. -/
def remove_helper (hashChunk : Chunk → Nat) (ms : SetCommitment)
    (removal_record : RemovalRecord) :
    Option (SetCommitment × (List (Nat × Chunk) × List Nat)) :=
  let batch_index := get_batch_index ms
  let active_window_start := batch_index * CHUNK_SIZE
  match removeLoop batch_index active_window_start
      removal_record.get_chunk_index_to_bit_indices ms.swbf_active
      removal_record.target_chunks [] with
  | none => none
  | some (active2, new_target_chunks, diff_indices) =>
    let mutation_data := new_target_chunks.map (fun e => (e.2.1, hashChunk e.2.2))
    some ({ aocl := ms.aocl,
            swbf_inactive := batch_mutate_leaf ms.swbf_inactive mutation_data,
            swbf_active := active2 },
      (new_target_chunks.map (fun e => (e.1, e.2.2)),
        List.insertionSort (· ≤ ·) diff_indices))

/-- Spec-side predicate for claim C7: the Bloom filter bit of index `i` as
it stands before the removal — in the active window when `i` is at or past
the window start, otherwise in the chunk the removal record carries for the
chunk index of `i` (`true`, i.e. not newly flipped, when that chunk is
absent — in that situation `remove_helper` is fatal anyway). -/
def preSet (ms : SetCommitment) (rr : RemovalRecord) (i : Nat) : Bool :=
  let batch := get_batch_index ms
  let ws := batch * CHUNK_SIZE
  if ws ≤ i then ms.swbf_active.get_bit (i - ws)
  else
    match rr.target_chunks.lookup (i / CHUNK_SIZE) with
    | some mc => mc.2.get_bit (i % CHUNK_SIZE)
    | none => true

lemma activeWindow_get_bit_after_set (aw : ActiveWindow) (r s : Nat) :
    (aw.set_bit r).get_bit s = (decide (r = s) || aw.get_bit s) := by
  have hperm := List.perm_insertionSort (· ≤ ·) (aw.sbf ++ [r])
  by_cases h1 : r = s <;> by_cases h2 : s ∈ aw.sbf <;>
    simp [ActiveWindow.get_bit, ActiveWindow.set_bit, hperm.mem_iff, h1, h2] <;> tauto

lemma chunk_get_bit_after_set (c : Chunk) (r s : Nat) :
    (c.set_bit r).get_bit s = (decide (r = s) || c.get_bit s) := by
  have hperm := List.perm_insertionSort (· ≤ ·) (c.relative_indices ++ [r])
  by_cases h1 : r = s <;> by_cases h2 : s ∈ c.relative_indices <;>
    simp [Chunk.get_bit, Chunk.set_bit, hperm.mem_iff, h1, h2] <;> tauto

lemma dictUpdate_lookup_ne (dict : List (Nat × (MmrMembershipProof × Chunk))) (key k : Nat)
    (chunk : Chunk) (h : k ≠ key) :
    (dictUpdate dict key chunk).lookup k = dict.lookup k := by
  induction dict with
  | nil => rfl
  | cons e dict ih =>
    rcases e with ⟨k0, mc⟩
    simp only [dictUpdate, List.map_cons]
    by_cases he : k0 = key
    · subst he
      rw [if_pos rfl]
      have hbeq : (k == k0) = false := beq_eq_false_iff_ne.mpr h
      show List.lookup k ((k0, (mc.1, chunk)) :: _) = List.lookup k ((k0, mc) :: dict)
      simp only [List.lookup, hbeq]
      exact ih
    · rw [if_neg (by simpa using he)]
      by_cases hk : k = k0
      · subst hk
        simp [List.lookup]
      · have hbeq : (k == k0) = false := beq_eq_false_iff_ne.mpr hk
        simp only [List.lookup, hbeq]
        exact ih

lemma activeFold_spec (ws : Nat) (bits : List Nat) :
    ∀ (active : ActiveWindow) (diff : List Nat), (∀ b ∈ bits, ws ≤ b) →
    (∀ i, i ∈ (bits.foldl (activeBitStep ws) (active, diff)).2 ↔
      i ∈ diff ∨ (i ∈ bits ∧ active.get_bit (i - ws) = false))
    ∧ (∀ s, (bits.foldl (activeBitStep ws) (active, diff)).1.get_bit s
        = (active.get_bit s || bits.any (fun b => decide (b - ws = s)))) := by
  induction bits with
  | nil =>
    intro active diff _
    simp
  | cons b bits ih =>
    intro active diff hws
    have hb : ws ≤ b := hws b (by simp)
    have hws2 : ∀ x ∈ bits, ws ≤ x := fun x hx => hws x (by simp [hx])
    rw [List.foldl_cons]
    rcases hcase : active.get_bit (b - ws) with _ | _
    · -- bit was unset: record b and set the bit
      have hstep : activeBitStep ws (active, diff) b
          = (active.set_bit (b - ws), diff ++ [b]) := by
        simp [activeBitStep, hcase]
      rw [hstep]
      obtain ⟨ihmem, ihbit⟩ := ih (active.set_bit (b - ws)) (diff ++ [b]) hws2
      constructor
      · intro i
        rw [ihmem i]
        by_cases hib : i = b
        · subst hib
          simp [hcase]
        · have hgb : (active.set_bit (b - ws)).get_bit (i - ws)
              = (decide (b - ws = i - ws) || active.get_bit (i - ws)) :=
            activeWindow_get_bit_after_set active (b - ws) (i - ws)
          constructor
          · rintro (h | ⟨hmem, hbit⟩)
            · left
              rcases List.mem_append.mp h with h | h
              · exact h
              · simp at h
                exact absurd h hib
            · right
              refine ⟨by simp [hmem], ?_⟩
              rw [hgb] at hbit
              rcases Bool.or_eq_false_iff.mp hbit with ⟨-, h2⟩
              exact h2
          · rintro (h | ⟨hmem, hbit⟩)
            · exact Or.inl (by simp [h])
            · have hmem2 : i ∈ bits := by
                rcases List.mem_cons.mp hmem with h | h
                · exact absurd h hib
                · exact h
              right
              refine ⟨hmem2, ?_⟩
              rw [hgb]
              have hne : ¬ (b - ws = i - ws) := by
                have hi : ws ≤ i := hws2 i hmem2
                omega
              simp [hne, hbit]
      · intro s
        rw [ihbit s, activeWindow_get_bit_after_set]
        simp only [List.any_cons]
        cases active.get_bit s <;> cases hd : decide (b - ws = s) <;> simp
    · -- bit was already set: nothing recorded
      have hstep : activeBitStep ws (active, diff) b
          = (active.set_bit (b - ws), diff) := by
        simp [activeBitStep, hcase]
      rw [hstep]
      obtain ⟨ihmem, ihbit⟩ := ih (active.set_bit (b - ws)) diff hws2
      constructor
      · intro i
        rw [ihmem i]
        by_cases hib : i = b
        · subst hib
          simp [hcase, activeWindow_get_bit_after_set]
        · have hgb : (active.set_bit (b - ws)).get_bit (i - ws)
              = (decide (b - ws = i - ws) || active.get_bit (i - ws)) :=
            activeWindow_get_bit_after_set active (b - ws) (i - ws)
          constructor
          · rintro (h | ⟨hmem, hbit⟩)
            · exact Or.inl h
            · right
              refine ⟨by simp [hmem], ?_⟩
              rw [hgb] at hbit
              rcases Bool.or_eq_false_iff.mp hbit with ⟨-, h2⟩
              exact h2
          · rintro (h | ⟨hmem, hbit⟩)
            · exact Or.inl h
            · have hmem2 : i ∈ bits := by
                rcases List.mem_cons.mp hmem with h | h
                · exact absurd h hib
                · exact h
              right
              refine ⟨hmem2, ?_⟩
              rw [hgb]
              have hne : ¬ (b - ws = i - ws) := by
                have hi : ws ≤ i := hws2 i hmem2
                omega
              simp [hne, hbit]
      · intro s
        rw [ihbit s, activeWindow_get_bit_after_set]
        simp only [List.any_cons]
        cases active.get_bit s <;> cases hd : decide (b - ws = s) <;> simp

lemma activeFold_nodup (ws : Nat) (bits : List Nat) :
    ∀ (active : ActiveWindow) (diff : List Nat), (∀ b ∈ bits, ws ≤ b) →
    diff.Nodup → (∀ i ∈ diff, ws ≤ i → active.get_bit (i - ws) = true) →
    (bits.foldl (activeBitStep ws) (active, diff)).2.Nodup
    ∧ (∀ i ∈ (bits.foldl (activeBitStep ws) (active, diff)).2, ws ≤ i →
        (bits.foldl (activeBitStep ws) (active, diff)).1.get_bit (i - ws) = true) := by
  induction bits with
  | nil =>
    intro active diff _ hnd hinv
    exact ⟨hnd, hinv⟩
  | cons b bits ih =>
    intro active diff hws hnd hinv
    have hb : ws ≤ b := hws b (by simp)
    have hws2 : ∀ x ∈ bits, ws ≤ x := fun x hx => hws x (by simp [hx])
    rw [List.foldl_cons]
    rcases hcase : active.get_bit (b - ws) with _ | _
    · have hstep : activeBitStep ws (active, diff) b
          = (active.set_bit (b - ws), diff ++ [b]) := by
        simp [activeBitStep, hcase]
      rw [hstep]
      have hbnotin : b ∉ diff := by
        intro hmem
        have := hinv b hmem hb
        rw [hcase] at this
        cases this
      refine ih (active.set_bit (b - ws)) (diff ++ [b]) hws2 ?_ ?_
      · simp [List.nodup_append, hnd, hbnotin]
      · intro i hi hwsi
        rw [activeWindow_get_bit_after_set]
        rcases List.mem_append.mp hi with h | h
        · rw [hinv i h hwsi]
          simp
        · simp at h
          subst h
          simp
    · have hstep : activeBitStep ws (active, diff) b
          = (active.set_bit (b - ws), diff) := by
        simp [activeBitStep, hcase]
      rw [hstep]
      refine ih (active.set_bit (b - ws)) diff hws2 hnd ?_
      intro i hi hwsi
      rw [activeWindow_get_bit_after_set, hinv i hi hwsi]
      simp

lemma chunkFold_spec (ci : Nat) (bits : List Nat) :
    ∀ (chunk : Chunk) (diff : List Nat), (∀ b ∈ bits, b / CHUNK_SIZE = ci) →
    (∀ i, i ∈ (bits.foldl chunkBitStep (chunk, diff)).2 ↔
      i ∈ diff ∨ (i ∈ bits ∧ chunk.get_bit (i % CHUNK_SIZE) = false))
    ∧ (∀ s, (bits.foldl chunkBitStep (chunk, diff)).1.get_bit s
        = (chunk.get_bit s || bits.any (fun b => decide (b % CHUNK_SIZE = s)))) := by
  induction bits with
  | nil =>
    intro chunk diff _
    simp
  | cons b bits ih =>
    intro chunk diff hco
    have hb : b / CHUNK_SIZE = ci := hco b (by simp)
    have hco2 : ∀ x ∈ bits, x / CHUNK_SIZE = ci := fun x hx => hco x (by simp [hx])
    rw [List.foldl_cons]
    rcases hcase : chunk.get_bit (b % CHUNK_SIZE) with _ | _
    · have hstep : chunkBitStep (chunk, diff) b
          = (chunk.set_bit (b % CHUNK_SIZE), diff ++ [b]) := by
        simp [chunkBitStep, hcase]
      rw [hstep]
      obtain ⟨ihmem, ihbit⟩ := ih (chunk.set_bit (b % CHUNK_SIZE)) (diff ++ [b]) hco2
      constructor
      · intro i
        rw [ihmem i]
        by_cases hib : i = b
        · subst hib
          simp [hcase]
        · have hgb : (chunk.set_bit (b % CHUNK_SIZE)).get_bit (i % CHUNK_SIZE)
              = (decide (b % CHUNK_SIZE = i % CHUNK_SIZE) || chunk.get_bit (i % CHUNK_SIZE)) :=
            chunk_get_bit_after_set chunk (b % CHUNK_SIZE) (i % CHUNK_SIZE)
          constructor
          · rintro (h | ⟨hmem, hbit⟩)
            · left
              rcases List.mem_append.mp h with h | h
              · exact h
              · simp at h
                exact absurd h hib
            · right
              refine ⟨by simp [hmem], ?_⟩
              rw [hgb] at hbit
              rcases Bool.or_eq_false_iff.mp hbit with ⟨-, h2⟩
              exact h2
          · rintro (h | ⟨hmem, hbit⟩)
            · exact Or.inl (by simp [h])
            · have hmem2 : i ∈ bits := by
                rcases List.mem_cons.mp hmem with h | h
                · exact absurd h hib
                · exact h
              right
              refine ⟨hmem2, ?_⟩
              rw [hgb]
              have hne : ¬ (b % CHUNK_SIZE = i % CHUNK_SIZE) := by
                have hi : i / CHUNK_SIZE = ci := hco2 i hmem2
                simp only [CHUNK_SIZE] at *
                omega
              simp [hne, hbit]
      · intro s
        rw [ihbit s, chunk_get_bit_after_set]
        simp only [List.any_cons]
        cases chunk.get_bit s <;> cases hd : decide (b % CHUNK_SIZE = s) <;> simp
    · have hstep : chunkBitStep (chunk, diff) b
          = (chunk.set_bit (b % CHUNK_SIZE), diff) := by
        simp [chunkBitStep, hcase]
      rw [hstep]
      obtain ⟨ihmem, ihbit⟩ := ih (chunk.set_bit (b % CHUNK_SIZE)) diff hco2
      constructor
      · intro i
        rw [ihmem i]
        by_cases hib : i = b
        · subst hib
          simp [hcase, chunk_get_bit_after_set]
        · have hgb : (chunk.set_bit (b % CHUNK_SIZE)).get_bit (i % CHUNK_SIZE)
              = (decide (b % CHUNK_SIZE = i % CHUNK_SIZE) || chunk.get_bit (i % CHUNK_SIZE)) :=
            chunk_get_bit_after_set chunk (b % CHUNK_SIZE) (i % CHUNK_SIZE)
          constructor
          · rintro (h | ⟨hmem, hbit⟩)
            · exact Or.inl h
            · right
              refine ⟨by simp [hmem], ?_⟩
              rw [hgb] at hbit
              rcases Bool.or_eq_false_iff.mp hbit with ⟨-, h2⟩
              exact h2
          · rintro (h | ⟨hmem, hbit⟩)
            · exact Or.inl h
            · have hmem2 : i ∈ bits := by
                rcases List.mem_cons.mp hmem with h | h
                · exact absurd h hib
                · exact h
              right
              refine ⟨hmem2, ?_⟩
              rw [hgb]
              have hne : ¬ (b % CHUNK_SIZE = i % CHUNK_SIZE) := by
                have hi : i / CHUNK_SIZE = ci := hco2 i hmem2
                simp only [CHUNK_SIZE] at *
                omega
              simp [hne, hbit]
      · intro s
        rw [ihbit s, chunk_get_bit_after_set]
        simp only [List.any_cons]
        cases chunk.get_bit s <;> cases hd : decide (b % CHUNK_SIZE = s) <;> simp

lemma chunkFold_nodup (ci : Nat) (bits : List Nat) :
    ∀ (chunk : Chunk) (diff : List Nat), (∀ b ∈ bits, b / CHUNK_SIZE = ci) →
    diff.Nodup → (∀ i ∈ diff, i / CHUNK_SIZE = ci → chunk.get_bit (i % CHUNK_SIZE) = true) →
    (bits.foldl chunkBitStep (chunk, diff)).2.Nodup
    ∧ (∀ i ∈ (bits.foldl chunkBitStep (chunk, diff)).2, i / CHUNK_SIZE = ci →
        (bits.foldl chunkBitStep (chunk, diff)).1.get_bit (i % CHUNK_SIZE) = true) := by
  induction bits with
  | nil =>
    intro chunk diff _ hnd hinv
    exact ⟨hnd, hinv⟩
  | cons b bits ih =>
    intro chunk diff hco hnd hinv
    have hb : b / CHUNK_SIZE = ci := hco b (by simp)
    have hco2 : ∀ x ∈ bits, x / CHUNK_SIZE = ci := fun x hx => hco x (by simp [hx])
    rw [List.foldl_cons]
    rcases hcase : chunk.get_bit (b % CHUNK_SIZE) with _ | _
    · have hstep : chunkBitStep (chunk, diff) b
          = (chunk.set_bit (b % CHUNK_SIZE), diff ++ [b]) := by
        simp [chunkBitStep, hcase]
      rw [hstep]
      have hbnotin : b ∉ diff := by
        intro hmem
        have := hinv b hmem hb
        rw [hcase] at this
        cases this
      refine ih (chunk.set_bit (b % CHUNK_SIZE)) (diff ++ [b]) hco2 ?_ ?_
      · simp [List.nodup_append, hnd, hbnotin]
      · intro i hi hici
        rw [chunk_get_bit_after_set]
        rcases List.mem_append.mp hi with h | h
        · rw [hinv i h hici]
          simp
        · simp at h
          subst h
          simp
    · have hstep : chunkBitStep (chunk, diff) b
          = (chunk.set_bit (b % CHUNK_SIZE), diff) := by
        simp [chunkBitStep, hcase]
      rw [hstep]
      refine ih (chunk.set_bit (b % CHUNK_SIZE)) diff hco2 hnd ?_
      intro i hi hici
      rw [chunk_get_bit_after_set, hinv i hi hici]
      simp

/-- Whether applying the removal of group `g` to the given state flips the
bit of index `i` (it was unset there before the call). -/
def flippedInGroup (batch ws : Nat) (active : ActiveWindow)
    (dict : List (Nat × (MmrMembershipProof × Chunk))) (g : Nat × List Nat) (i : Nat) : Prop :=
  if batch ≤ g.1 then active.get_bit (i - ws) = false
  else ∃ mc, dict.lookup g.1 = some mc ∧ mc.2.get_bit (i % CHUNK_SIZE) = false

lemma removeLoop_spec (batch : Nat) :
    ∀ (groups : List (Nat × List Nat)) (active : ActiveWindow)
      (dict : List (Nat × (MmrMembershipProof × Chunk))) (diff : List Nat)
      (out : ActiveWindow × List (Nat × (MmrMembershipProof × Chunk)) × List Nat),
    removeLoop batch (batch * CHUNK_SIZE) groups active dict diff = some out →
    (∀ g ∈ groups, ∀ b ∈ g.2, b / CHUNK_SIZE = g.1) →
    (groups.map Prod.fst).Nodup →
    (∀ i ∈ diff, ∀ g ∈ groups, i / CHUNK_SIZE ≠ g.1) →
    diff.Nodup →
    (∀ i ∈ diff, batch * CHUNK_SIZE ≤ i → active.get_bit (i - batch * CHUNK_SIZE) = true) →
    (∀ i, i ∈ out.2.2 ↔
      i ∈ diff ∨ ∃ g ∈ groups, i ∈ g.2
        ∧ flippedInGroup batch (batch * CHUNK_SIZE) active dict g i)
    ∧ out.2.2.Nodup := by
  intro groups
  induction groups with
  | nil =>
    intro active dict diff out h _ _ _ hnd _
    simp only [removeLoop, Option.some.injEq] at h
    subst h
    refine ⟨fun i => ?_, hnd⟩
    simp
  | cons g rest ih =>
    intro active dict diff out h hcoh hkeys hdiffkeys hnd hactinv
    rcases g with ⟨ci, bits⟩
    have hcoh0 : ∀ b ∈ bits, b / CHUNK_SIZE = ci := fun b hb => hcoh (ci, bits) (by simp) b hb
    have hcohrest : ∀ g ∈ rest, ∀ b ∈ g.2, b / CHUNK_SIZE = g.1 :=
      fun g hg => hcoh g (by simp [hg])
    have hkeysrest : (rest.map Prod.fst).Nodup := by
      simp only [List.map_cons, List.nodup_cons] at hkeys
      exact hkeys.2
    have hcinotin : ci ∉ rest.map Prod.fst := by
      simp only [List.map_cons, List.nodup_cons] at hkeys
      exact hkeys.1
    simp only [removeLoop] at h
    by_cases hci : batch ≤ ci
    · rw [if_pos hci] at h
      have hwsbits : ∀ b ∈ bits, batch * CHUNK_SIZE ≤ b := by
        intro b hb
        have hc := hcoh0 b hb
        simp only [CHUNK_SIZE] at hc ⊢
        omega
      obtain ⟨hmem, hbit⟩ := activeFold_spec (batch * CHUNK_SIZE) bits active diff hwsbits
      obtain ⟨hnd2, hinv2⟩ :=
        activeFold_nodup (batch * CHUNK_SIZE) bits active diff hwsbits hnd hactinv
      have hdiffkeys2 : ∀ i ∈ (bits.foldl (activeBitStep (batch * CHUNK_SIZE))
          (active, diff)).2, ∀ g ∈ rest, i / CHUNK_SIZE ≠ g.1 := by
        intro i hi g hg
        rcases (hmem i).mp hi with hiold | ⟨hibits, -⟩
        · exact hdiffkeys i hiold g (by simp [hg])
        · rw [hcoh0 i hibits]
          intro hciq
          exact hcinotin (by rw [hciq]; exact List.mem_map_of_mem Prod.fst hg)
      obtain ⟨ihmem, ihnd⟩ := ih _ dict _ out h hcohrest hkeysrest hdiffkeys2 hnd2 hinv2
      refine ⟨fun i => ?_, ihnd⟩
      rw [ihmem i]
      have htransfer : ∀ g ∈ rest, i ∈ g.2 →
          (flippedInGroup batch (batch * CHUNK_SIZE)
            (bits.foldl (activeBitStep (batch * CHUNK_SIZE)) (active, diff)).1 dict g i
          ↔ flippedInGroup batch (batch * CHUNK_SIZE) active dict g i) := by
        intro g hg hig
        by_cases hgci : batch ≤ g.1
        · simp only [flippedInGroup, if_pos hgci]
          rw [hbit (i - batch * CHUNK_SIZE)]
          have hany : bits.any (fun b => decide (b - batch * CHUNK_SIZE
              = i - batch * CHUNK_SIZE)) = false := by
            rw [List.any_eq_false]
            intro b hb
            simp only [decide_eq_true_eq]
            have hbci := hcoh0 b hb
            have higk := hcohrest g hg i hig
            have hbws := hwsbits b hb
            have hiws : batch * CHUNK_SIZE ≤ i := by
              simp only [CHUNK_SIZE] at higk ⊢
              omega
            intro heq
            have hbi : b = i := by omega
            apply hcinotin
            have hcig : ci = g.1 := by rw [← hbci, hbi, higk]
            rw [hcig]
            exact List.mem_map_of_mem Prod.fst hg
          rw [hany]
          cases active.get_bit (i - batch * CHUNK_SIZE) <;> simp
        · simp only [flippedInGroup, if_neg hgci]
      constructor
      · rintro (hin | ⟨g, hg, hig, hfl⟩)
        · rcases (hmem i).mp hin with hiold | ⟨hibits, hunset⟩
          · exact Or.inl hiold
          · refine Or.inr ⟨(ci, bits), by simp, hibits, ?_⟩
            simp only [flippedInGroup, if_pos hci]
            exact hunset
        · exact Or.inr ⟨g, by simp [hg], hig, (htransfer g hg hig).mp hfl⟩
      · rintro (hin | ⟨g, hg, hig, hfl⟩)
        · exact Or.inl ((hmem i).mpr (Or.inl hin))
        · rcases List.mem_cons.mp hg with rfl | hgrest
          · simp only [flippedInGroup, if_pos hci] at hfl
            exact Or.inl ((hmem i).mpr (Or.inr ⟨hig, hfl⟩))
          · exact Or.inr ⟨g, hgrest, hig, (htransfer g hgrest hig).mpr hfl⟩
    · rw [if_neg hci] at h
      rcases hlk : dict.lookup ci with _ | mc
      · rw [hlk] at h
        cases h
      · rw [hlk] at h
        have hchunkinv : ∀ i ∈ diff, i / CHUNK_SIZE = ci →
            mc.2.get_bit (i % CHUNK_SIZE) = true := by
          intro i hi hici
          exact absurd hici (hdiffkeys i hi (ci, bits) (by simp))
        obtain ⟨hmem, hbit⟩ := chunkFold_spec ci bits mc.2 diff hcoh0
        obtain ⟨hnd2, hinv2⟩ := chunkFold_nodup ci bits mc.2 diff hcoh0 hnd hchunkinv
        have hlowbits : ∀ b ∈ bits, ¬ (batch * CHUNK_SIZE ≤ b) := by
          intro b hb
          have hc := hcoh0 b hb
          simp only [CHUNK_SIZE] at hc ⊢
          omega
        have hactinv2 : ∀ i ∈ (bits.foldl chunkBitStep (mc.2, diff)).2,
            batch * CHUNK_SIZE ≤ i → active.get_bit (i - batch * CHUNK_SIZE) = true := by
          intro i hi hiws
          rcases (hmem i).mp hi with hiold | ⟨hibits, -⟩
          · exact hactinv i hiold hiws
          · exact absurd hiws (hlowbits i hibits)
        have hdiffkeys2 : ∀ i ∈ (bits.foldl chunkBitStep (mc.2, diff)).2,
            ∀ g ∈ rest, i / CHUNK_SIZE ≠ g.1 := by
          intro i hi g hg
          rcases (hmem i).mp hi with hiold | ⟨hibits, -⟩
          · exact hdiffkeys i hiold g (by simp [hg])
          · rw [hcoh0 i hibits]
            intro hciq
            exact hcinotin (by rw [hciq]; exact List.mem_map_of_mem Prod.fst hg)
        obtain ⟨ihmem, ihnd⟩ := ih active _ _ out h hcohrest hkeysrest hdiffkeys2 hnd2 hactinv2
        refine ⟨fun i => ?_, ihnd⟩
        rw [ihmem i]
        have htransfer : ∀ g ∈ rest, i ∈ g.2 →
            (flippedInGroup batch (batch * CHUNK_SIZE) active
              (dictUpdate dict ci (bits.foldl chunkBitStep (mc.2, diff)).1) g i
            ↔ flippedInGroup batch (batch * CHUNK_SIZE) active dict g i) := by
          intro g hg hig
          by_cases hgci : batch ≤ g.1
          · simp only [flippedInGroup, if_pos hgci]
          · simp only [flippedInGroup, if_neg hgci]
            have hne : g.1 ≠ ci := by
              intro heq
              exact hcinotin (heq ▸ List.mem_map_of_mem Prod.fst hg)
            rw [dictUpdate_lookup_ne dict ci g.1 _ hne]
        constructor
        · rintro (hin | ⟨g, hg, hig, hfl⟩)
          · rcases (hmem i).mp hin with hiold | ⟨hibits, hunset⟩
            · exact Or.inl hiold
            · refine Or.inr ⟨(ci, bits), by simp, hibits, ?_⟩
              simp only [flippedInGroup, if_neg hci]
              exact ⟨mc, hlk, hunset⟩
          · exact Or.inr ⟨g, by simp [hg], hig, (htransfer g hg hig).mp hfl⟩
        · rintro (hin | ⟨g, hg, hig, hfl⟩)
          · exact Or.inl ((hmem i).mpr (Or.inl hin))
          · rcases List.mem_cons.mp hg with rfl | hgrest
            · simp only [flippedInGroup, if_neg hci] at hfl
              rcases hfl with ⟨mc2, hlk2, hunset⟩
              rw [hlk] at hlk2
              injection hlk2 with hlk2
              subst hlk2
              exact Or.inl ((hmem i).mpr (Or.inr ⟨hig, hunset⟩))
            · exact Or.inr ⟨g, hgrest, hig, (htransfer g hgrest hig).mpr hfl⟩

lemma groups_coherent (l : List Nat) :
    ∀ g ∈ bit_indices_to_hash_map l, ∀ b ∈ g.2, b / CHUNK_SIZE = g.1 := by
  intro g hg b hb
  simp only [bit_indices_to_hash_map, List.mem_map] at hg
  rcases hg with ⟨ci, -, rfl⟩
  have := List.of_mem_filter hb
  simpa using this

lemma groups_subset (l : List Nat) :
    ∀ g ∈ bit_indices_to_hash_map l, ∀ b ∈ g.2, b ∈ l := by
  intro g hg b hb
  simp only [bit_indices_to_hash_map, List.mem_map] at hg
  rcases hg with ⟨ci, -, rfl⟩
  exact List.mem_of_mem_filter hb

lemma groups_keys_nodup (l : List Nat) :
    ((bit_indices_to_hash_map l).map Prod.fst).Nodup := by
  simp only [bit_indices_to_hash_map, List.map_map]
  rw [show (Prod.fst ∘ fun ci =>
      (ci, l.filter (fun i => decide (i / CHUNK_SIZE = ci)))) = id from rfl, List.map_id]
  exact ((List.perm_insertionSort _ _).nodup_iff).mpr (List.nodup_dedup _)

lemma groups_cover (l : List Nat) (i : Nat) (hi : i ∈ l) :
    ∃ g ∈ bit_indices_to_hash_map l, i ∈ g.2 ∧ g.1 = i / CHUNK_SIZE := by
  refine ⟨(i / CHUNK_SIZE, l.filter (fun x => decide (x / CHUNK_SIZE = i / CHUNK_SIZE))),
    ?_, ?_, rfl⟩
  · simp only [bit_indices_to_hash_map, List.mem_map]
    refine ⟨i / CHUNK_SIZE, ?_, rfl⟩
    rw [(List.perm_insertionSort _ _).mem_iff, List.mem_dedup]
    exact List.mem_map_of_mem _ hi
  · exact List.mem_filter.mpr ⟨hi, by simp⟩

/-- Claim C7: a successful `remove_helper(rr)` returns, alongside the
updated chunks, exactly the list of bit indices whose Bloom filter bits
were flipped from 0 to 1 by this call — in the active window or in the
target chunks of `rr` — and that list is sorted in ascending order and
contains no duplicates. -/
theorem remove_helper_diff_spec (hashChunk : Chunk → Nat) (ms : SetCommitment)
    (rr : RemovalRecord) (out : SetCommitment × (List (Nat × Chunk) × List Nat))
    (h : remove_helper hashChunk ms rr = some out) :
    List.Sorted (· ≤ ·) out.2.2
    ∧ out.2.2.Nodup
    ∧ (∀ i, i ∈ out.2.2 ↔ i ∈ rr.bit_indices ∧ preSet ms rr i = false) := by
  simp only [remove_helper] at h
  rcases hloop : removeLoop (get_batch_index ms) (get_batch_index ms * CHUNK_SIZE)
      rr.get_chunk_index_to_bit_indices ms.swbf_active rr.target_chunks []
    with _ | ⟨active2, dict2, diff2⟩
  · rw [hloop] at h
    cases h
  · rw [hloop] at h
    simp only [Option.some.injEq] at h
    obtain ⟨hmem, hnd⟩ := removeLoop_spec (get_batch_index ms)
      rr.get_chunk_index_to_bit_indices ms.swbf_active rr.target_chunks []
      (active2, dict2, diff2) hloop
      (groups_coherent rr.bit_indices) (groups_keys_nodup rr.bit_indices)
      (by intro i hi; cases hi) (by constructor) (by intro i hi; cases hi)
    have hout : out.2.2 = List.insertionSort (· ≤ ·) diff2 := by
      rw [← h]
    refine ⟨?_, ?_, ?_⟩
    · rw [hout]
      exact List.sorted_insertionSort _ _
    · rw [hout]
      exact ((List.perm_insertionSort _ _).nodup_iff).mpr hnd
    · intro i
      rw [hout, (List.perm_insertionSort _ _).mem_iff, hmem i]
      simp only [List.not_mem_nil, false_or]
      constructor
      · rintro ⟨g, hg, hig, hfl⟩
        have hgi : i / CHUNK_SIZE = g.1 := groups_coherent rr.bit_indices g hg i hig
        refine ⟨groups_subset rr.bit_indices g hg i hig, ?_⟩
        by_cases hci : get_batch_index ms ≤ g.1
        · have hiws : get_batch_index ms * CHUNK_SIZE ≤ i := by
            simp only [CHUNK_SIZE] at hgi ⊢
            omega
          simp only [flippedInGroup, if_pos hci] at hfl
          simp only [preSet, if_pos hiws]
          exact hfl
        · have hiws : ¬ (get_batch_index ms * CHUNK_SIZE ≤ i) := by
            simp only [CHUNK_SIZE] at hgi ⊢
            omega
          simp only [flippedInGroup, if_neg hci] at hfl
          rcases hfl with ⟨mc, hlk, hbitf⟩
          simp only [preSet, if_neg hiws, ← hgi] at *
          rw [hlk]
          exact hbitf
      · rintro ⟨hi, hpre⟩
        obtain ⟨g, hg, hig, hgkey⟩ := groups_cover rr.bit_indices i hi
        refine ⟨g, hg, hig, ?_⟩
        by_cases hiws : get_batch_index ms * CHUNK_SIZE ≤ i
        · have hci : get_batch_index ms ≤ g.1 := by
            rw [hgkey]
            simp only [CHUNK_SIZE] at hiws ⊢
            omega
          simp only [flippedInGroup, if_pos hci]
          simp only [preSet, if_pos hiws] at hpre
          exact hpre
        · have hci : ¬ (get_batch_index ms ≤ g.1) := by
            rw [hgkey]
            simp only [CHUNK_SIZE] at hiws ⊢
            omega
          simp only [flippedInGroup, if_neg hci]
          simp only [preSet, if_neg hiws] at hpre
          rcases hlk : rr.target_chunks.lookup (i / CHUNK_SIZE) with _ | mc
          · rw [hlk] at hpre
            cases hpre
          · rw [hlk] at hpre
            exact ⟨mc, by rw [hgkey]; exact hlk, hpre⟩

/-- Witness for C7: evaluates `remove_helper` on the empty mutator set and
a removal record naming bit 5, which lands in the active window; the
returned flipped list is `[5]`. -/
theorem remove_helper_diff_spec_witness :
    List.Sorted (· ≤ ·)
      ((SetCommitment.mk [] [] (ActiveWindow.mk [5]),
        (([] : List (Nat × Chunk)), [5])).2.2)
    ∧ ((SetCommitment.mk [] [] (ActiveWindow.mk [5]),
        (([] : List (Nat × Chunk)), [5])).2.2).Nodup
    ∧ (5 ∈ ((SetCommitment.mk [] [] (ActiveWindow.mk [5]),
        (([] : List (Nat × Chunk)), [5])).2.2)
      ↔ 5 ∈ (RemovalRecord.mk [5] []).bit_indices
        ∧ preSet (SetCommitment.mk [] [] (ActiveWindow.mk []))
            (RemovalRecord.mk [5] []) 5 = false) :=
  let full := remove_helper_diff_spec (fun _ => 0)
    (SetCommitment.mk [] [] (ActiveWindow.mk []))
    (RemovalRecord.mk [5] [])
    (SetCommitment.mk [] [] (ActiveWindow.mk [5]),
      (([] : List (Nat × Chunk)), [5]))
    (by decide)
  ⟨full.1, full.2.1, full.2.2 5⟩

/-! ## Archival state (archival_state.rs)

The block index and the ms-sync table are embedded as association lists
from digests to records; digests are `Nat`. The block and header types live
outside the given sources and are modelled from the spec with exactly the
fields `archival_state.rs` reads. -/

/-- Modelled from the spec: a block header as read by
`get_ancestor_block_digests` — its own digest (`neptune_hash()`) and the
digest of its parent. -/
structure BlockHeader where
  neptune_hash : Nat
  prev_block_digest : Nat
deriving DecidableEq, Repr

/-- `ArchivalState::get_block_header(digest)`: look the digest up in the
block index, falling back to the genesis block when the digest is the
genesis digest. -/
def get_block_header (db : List (Nat × BlockHeader)) (genesis : BlockHeader)
    (block_digest : Nat) : Option BlockHeader :=
  match db.lookup block_digest with
  | some r => some r
  | none => if block_digest = genesis.neptune_hash then some genesis else none

/-- The `while let` loop of `get_ancestor_block_digests`, with the running
`count` as fuel: push the parent digest, decrement, stop at zero or at an
unknown parent. -/
def getAncestorsLoop (db : List (Nat × BlockHeader)) (genesis : BlockHeader) :
    Nat → Nat → List Nat
  | parent_digest, fuel =>
    match fuel, get_block_header db genesis parent_digest with
    | _, none => []
    | 0, some _ => []
    | Nat.succ f, some parent =>
      parent.neptune_hash ::
        (if f = 0 then [] else getAncestorsLoop db genesis parent.prev_block_digest f)

/-- `ArchivalState::get_ancestor_block_digests(block_digest, count)`.
`count` is a `usize` and the loop body decrements it after the first push,
so with `count = 0` the first decrement wraps around to `2 ^ 64 - 1` (the
debug build panics instead); `none` models the panic of the `unwrap` on an
unknown input digest. -/
def get_ancestor_block_digests (db : List (Nat × BlockHeader)) (genesis : BlockHeader)
    (block_digest : Nat) (count : Nat) : Option (List Nat) :=
  (get_block_header db genesis block_digest).map
    (fun bh => getAncestorsLoop db genesis bh.prev_block_digest
      (if count = 0 then 2 ^ 64 else count))

/-- Claim C9, failing input: a single block of height 1 on top of genesis,
queried with `count = 0`. The claim (and the doc comment of the source,
which calls `count` the maximum length of the returned list) requires
`min(0, height) = 0` digests; the release build wraps the counter and walks
all the way to genesis, returning 1 digest (the debug build panics on the
underflow). -/
theorem get_ancestor_block_digests_count_zero_bug :
    get_ancestor_block_digests [(1, BlockHeader.mk 1 0)] (BlockHeader.mk 0 999) 1 0
      = some [0]
    ∧ ((some [0] : Option (List Nat)).map List.length ≠ some 0) := by
  constructor
  · rfl
  · decide

/-- `SetCommitment::window_slides_back(removed_index)`. -/
def window_slides_back (removed_index : Nat) : Bool := window_slides removed_index

/-- `ActiveWindow::remove(index)`: assert the index is inside the window,
drop the last occurrence, fatal (`none`) if the indicated integer is
already zero. -/
def ActiveWindow.remove (aw : ActiveWindow) (index : Nat) : Option ActiveWindow :=
  if index < WINDOW_SIZE then
    if index ∈ aw.sbf then some ⟨(aw.sbf.reverse.erase index).reverse⟩ else none
  else none

/-- Modelled from the spec: clearing one bit of a chunk
(`Chunk::unset_bit`; chunk.rs is missing) — fatal if the bit is already
zero. -/
def Chunk.unset_bit (c : Chunk) (index : Nat) : Option Chunk :=
  if index ∈ c.relative_indices then some ⟨c.relative_indices.erase index⟩ else none

/-- Modelled from the spec: the archival mutator set
(`ArchivalMutatorSet`, in an external crate) — the set commitment plus the
chunk store holding every chunk that has slid into the inactive SWBF,
keyed by chunk index (list position). -/
structure ArchivalMutatorSet where
  set_commitment : SetCommitment
  chunks : List Chunk
deriving DecidableEq, Repr

/-- Modelled from the spec: `ArchivalMutatorSet::add` — `add_helper`, plus
storing the slid chunk in the chunk store when the window slid. -/
def ams_add (hashChunk : Chunk → Nat) (ams : ArchivalMutatorSet)
    (addition_record : AdditionRecord) : ArchivalMutatorSet :=
  let r := add_helper hashChunk ams.set_commitment addition_record
  match r.2 with
  | none => { ams with set_commitment := r.1 }
  | some (_, chunk) => { set_commitment := r.1, chunks := ams.chunks ++ [chunk] }

/-- Modelled from the spec: `ArchivalMutatorSet::remove` — `remove_helper`,
plus writing the updated chunks back to the chunk store. -/
def ams_remove (hashChunk : Chunk → Nat) (ams : ArchivalMutatorSet)
    (removal_record : RemovalRecord) : Option (ArchivalMutatorSet × List Nat) :=
  match remove_helper hashChunk ams.set_commitment removal_record with
  | none => none
  | some (sc2, new_chunks, diff) =>
    some ({ set_commitment := sc2,
            chunks := new_chunks.foldl (fun cs e => cs.set e.1 e.2) ams.chunks }, diff)

/-- Modelled from the spec: `ArchivalMutatorSet::revert_add` — the inverse
of add: if a chunk slid in during the reverted addition, pop it from the
inactive SWBF and slide it back into the window; remove the AOCL leaf.
Fatal (`none`) when the stored state does not allow it. -/
def revert_add (ams : ArchivalMutatorSet) (_addition_record : AdditionRecord) :
    Option ArchivalMutatorSet :=
  let n := ams.set_commitment.aocl.length
  let aocl2 := ams.set_commitment.aocl.dropLast
  if window_slides_back (n - 1) then
    match ams.chunks.getLast? with
    | none => none
    | some chunk =>
      match ams.set_commitment.swbf_active.slide_window_back chunk with
      | none => none
      | some active2 =>
        some ⟨⟨aocl2, ams.set_commitment.swbf_inactive.dropLast, active2⟩,
          ams.chunks.dropLast⟩
  else
    some ⟨⟨aocl2, ams.set_commitment.swbf_inactive, ams.set_commitment.swbf_active⟩,
      ams.chunks⟩

/-- Modelled from the spec: reverting one flipped Bloom filter bit — clear
it in the active window or in the stored chunk (and refresh the
corresponding inactive-SWBF leaf); fatal if the bit is already zero. -/
def revertOneBit (hashChunk : Chunk → Nat) (ams : ArchivalMutatorSet) (i : Nat) :
    Option ArchivalMutatorSet :=
  let batch := get_batch_index ams.set_commitment
  let ws := batch * CHUNK_SIZE
  if ws ≤ i then
    (ams.set_commitment.swbf_active.remove (i - ws)).map
      (fun a2 => { ams with set_commitment := { ams.set_commitment with swbf_active := a2 } })
  else
    match ams.chunks.get? (i / CHUNK_SIZE) with
    | none => none
    | some c =>
      (c.unset_bit (i % CHUNK_SIZE)).map (fun c2 =>
        { set_commitment :=
            { ams.set_commitment with
              swbf_inactive :=
                ams.set_commitment.swbf_inactive.set (i / CHUNK_SIZE) (hashChunk c2) },
          chunks := ams.chunks.set (i / CHUNK_SIZE) c2 })

/-- Modelled from the spec: `ArchivalMutatorSet::revert_remove(diff)` —
clear exactly the recorded flipped bits; fatal if any is already zero. -/
def revert_remove (hashChunk : Chunk → Nat) (ams : ArchivalMutatorSet)
    (diff_indices : List Nat) : Option ArchivalMutatorSet :=
  diff_indices.foldl (fun st i => st.bind (fun a => revertOneBit hashChunk a i)) (some ams)

/-- Modelled from the spec: a block, with exactly the fields
`update_mutator_set` reads (the block type files are outside the given
sources): its digest, the parent digest, the addition and removal records
of its mutator set update, and the mutator set accumulator it commits to. -/
structure Block where
  hash : Nat
  prev_block_digest : Nat
  additions : List AdditionRecord
  removals : List RemovalRecord
  next_mutator_set_accumulator : SetCommitment
deriving DecidableEq, Repr

/-- The ms-sync table: the `SyncDigest` entry and the `Diff` entries. -/
structure MsBlockSync where
  sync_digest : Option Nat
  diffs : List (Nat × List Nat)
deriving DecidableEq, Repr

/-- `ArchivalState::get_block_with_lock(digest)`: block index lookup with
the in-memory genesis block as fallback. -/
def get_block_with_lock (block_db : List (Nat × Block)) (genesis_block : Block)
    (block_digest : Nat) : Option Block :=
  match block_db.lookup block_digest with
  | some b => some b
  | none => if genesis_block.hash = block_digest then some genesis_block else none

/-- The rollback phase of `update_mutator_set`: while the cursor differs
from the parent of the new block, fetch the cursor block, revert its
addition records in reverse, revert its recorded diff, and move the cursor
to its parent. The Rust loop terminates only if the walk reaches the
target; the embedding bounds it by fuel, `none` covering both the fatal
lookups and a walk that never reaches the target. -/
def rollbackLoop (hashChunk : Chunk → Nat) (block_db : List (Nat × Block))
    (genesis_block : Block) (diffs : List (Nat × List Nat)) (target : Nat) :
    Nat → ArchivalMutatorSet → Nat → Option ArchivalMutatorSet
  | cursor, ams, fuel =>
    if cursor = target then some ams
    else
      match fuel with
      | 0 => none
      | Nat.succ f =>
        match get_block_with_lock block_db genesis_block cursor with
        | none => none
        | some roll_back_block =>
          match (roll_back_block.additions.reverse).foldl
              (fun st ar => st.bind (fun a => revert_add a ar)) (some ams) with
          | none => none
          | some ams2 =>
            match diffs.lookup roll_back_block.hash with
            | none => none
            | some block_diff_indices =>
              match revert_remove hashChunk ams2 block_diff_indices with
              | none => none
              | some ams3 =>
                rollbackLoop hashChunk block_db genesis_block diffs target
                  roll_back_block.prev_block_digest ams3 f

/-- The removal phase of `update_mutator_set`: the records are reversed and
popped from the back (hence processed in original order); each remaining
record is batch-updated before every removal (identity in this embedding,
where authentication paths are leaf indices that removals do not move);
the flipped indices are collected. -/
def removalsLoop (hashChunk : Chunk → Nat) :
    ArchivalMutatorSet → List RemovalRecord → List Nat →
    Option (ArchivalMutatorSet × List Nat)
  | ams, [], changed => some (ams, changed)
  | ams, rr :: rest, changed =>
    match ams_remove hashChunk ams rr with
    | none => none
    | some (ams2, flipped) => removalsLoop hashChunk ams2 rest (changed ++ flipped)

/-- `ArchivalState::update_mutator_set(new_block)`. `getCommitment` embeds
`MutatorSet::get_commitment` of the generic hasher; the addition loop also
batch-updates the pending removal records before every `add`
(identity here, as for the removal loop); persisting the active window to
its database is I/O without effect on the returned state. `none` models
every fatal outcome: the assert on a missing sync digest for a block that
does not extend genesis, missing blocks or diffs during rollback, a failed
revert or removal, and the final `assert_eq` between the commitment of the
archival mutator set and the commitment of the accumulator carried by the
block. -/
def update_mutator_set (hashChunk : Chunk → Nat) (getCommitment : SetCommitment → Nat)
    (block_db : List (Nat × Block)) (genesis_block : Block)
    (ams : ArchivalMutatorSet) (sync : MsBlockSync) (new_block : Block) (fuel : Nat) :
    Option (ArchivalMutatorSet × MsBlockSync) :=
  let ms_block_sync_digest : Option Nat :=
    match sync.sync_digest with
    | some value => some value
    | none =>
      if new_block.prev_block_digest = genesis_block.hash then some genesis_block.hash
      else none
  match ms_block_sync_digest with
  | none => none
  | some sync_digest =>
    match rollbackLoop hashChunk block_db genesis_block sync.diffs
        new_block.prev_block_digest sync_digest ams fuel with
    | none => none
    | some ams2 =>
      let ams3 := new_block.additions.foldl (fun a ar => ams_add hashChunk a ar) ams2
      match removalsLoop hashChunk ams3 new_block.removals [] with
      | none => none
      | some (ams4, changed_indices) =>
        let changed_indices2 := (List.insertionSort (· ≤ ·) changed_indices).dedup
        if getCommitment new_block.next_mutator_set_accumulator
            = getCommitment ams4.set_commitment then
          some (ams4, { sync_digest := some new_block.hash,
                        diffs := (new_block.hash, changed_indices2) :: sync.diffs })
        else none

/-- Claim C1: whenever `update_mutator_set(B)` returns successfully, the
commitment of the archival mutator set equals the commitment of
`B.body.next_mutator_set_accumulator`; when the two commitments differ
after the rollback and forward phases the call is fatal (`none`, modelling
the `assert_eq` panic), so it never returns normally with a mismatched
state. -/
theorem update_mutator_set_commitment (hashChunk : Chunk → Nat)
    (getCommitment : SetCommitment → Nat) (block_db : List (Nat × Block))
    (genesis_block : Block) (ams : ArchivalMutatorSet) (sync : MsBlockSync)
    (new_block : Block) (fuel : Nat) (out : ArchivalMutatorSet × MsBlockSync)
    (h : update_mutator_set hashChunk getCommitment block_db genesis_block ams sync
        new_block fuel = some out) :
    getCommitment out.1.set_commitment
      = getCommitment new_block.next_mutator_set_accumulator := by
  simp only [update_mutator_set] at h
  split at h
  · cases h
  · split at h
    · cases h
    · split at h
      · cases h
      · split at h
        · rename_i hassert
          simp only [Option.some.injEq] at h
          subst h
          exact hassert.symm
        · cases h

/-- Witness for C1: evaluates `update_mutator_set` on the empty archival
mutator set, an empty ms-sync table and an empty block directly extending
genesis, with the AOCL leaf count as the commitment function. -/
theorem update_mutator_set_commitment_witness :
    (fun sc : SetCommitment => sc.aocl.length)
        ((ArchivalMutatorSet.mk (SetCommitment.mk [] [] (ActiveWindow.mk [])) [],
          MsBlockSync.mk (some 1) [(1, [])]).1.set_commitment)
      = (fun sc : SetCommitment => sc.aocl.length)
          (Block.mk 1 0 [] [] (SetCommitment.mk [] [] (ActiveWindow.mk []))).next_mutator_set_accumulator :=
  update_mutator_set_commitment (fun _ => 0) (fun sc => sc.aocl.length) []
    (Block.mk 0 999 [] [] (SetCommitment.mk [] [] (ActiveWindow.mk [])))
    (ArchivalMutatorSet.mk (SetCommitment.mk [] [] (ActiveWindow.mk [])) [])
    (MsBlockSync.mk none [])
    (Block.mk 1 0 [] [] (SetCommitment.mk [] [] (ActiveWindow.mk [])))
    5
    (ArchivalMutatorSet.mk (SetCommitment.mk [] [] (ActiveWindow.mk [])) [],
      MsBlockSync.mk (some 1) [(1, [])])
    (by decide)

/-- Claim C10: when the ms-sync table contains no `SyncDigest` entry and
the new block does not directly extend genesis, `update_mutator_set` is
fatal (the source asserts that an empty ms-sync table is only allowed for
the block right after genesis). -/
theorem update_mutator_set_missing_sync_fatal (hashChunk : Chunk → Nat)
    (getCommitment : SetCommitment → Nat) (block_db : List (Nat × Block))
    (genesis_block : Block) (ams : ArchivalMutatorSet) (sync : MsBlockSync)
    (new_block : Block) (fuel : Nat)
    (hsync : sync.sync_digest = none)
    (hprev : new_block.prev_block_digest ≠ genesis_block.hash) :
    update_mutator_set hashChunk getCommitment block_db genesis_block ams sync
      new_block fuel = none := by
  simp only [update_mutator_set, hsync, if_neg hprev]

/-- Witness for C10: an empty ms-sync table and a block whose parent digest
`5` is not the genesis digest `0`. -/
theorem update_mutator_set_missing_sync_fatal_witness :
    update_mutator_set (fun _ => 0) (fun sc => sc.aocl.length) []
      (Block.mk 0 999 [] [] (SetCommitment.mk [] [] (ActiveWindow.mk [])))
      (ArchivalMutatorSet.mk (SetCommitment.mk [] [] (ActiveWindow.mk [])) [])
      (MsBlockSync.mk none [])
      (Block.mk 7 5 [] [] (SetCommitment.mk [] [] (ActiveWindow.mk [])))
      5 = none :=
  update_mutator_set_missing_sync_fatal (fun _ => 0) (fun sc => sc.aocl.length) []
    (Block.mk 0 999 [] [] (SetCommitment.mk [] [] (ActiveWindow.mk [])))
    (ArchivalMutatorSet.mk (SetCommitment.mk [] [] (ActiveWindow.mk [])) [])
    (MsBlockSync.mk none [])
    (Block.mk 7 5 [] [] (SetCommitment.mk [] [] (ActiveWindow.mk [])))
    5 rfl (by decide)
